import Mathlib

/-!
Verification of the NeuroPoetBot poetry post-processing core.

Shallow embedding of `src/neuropoet-poetry/src/preprocessing/preprocessing_utils.py`
and `src/neuropoet-poetry/src/inference/postprocessing.py`.

Modelling conventions:
* Python strings are `List Char`.
* Python regular expressions over the character classes that actually occur in
  this code (ASCII word characters, Russian letters, the two combining stress
  marks, whitespace, punctuation) are rendered as explicit character scans;
  each rendering is justified in its doc comment.
* The external stress predictor (`StressRNN`), the external hyphenation
  dictionary (`pyphen`) and the process-wide random generator are injected
  capabilities; they enter as explicit function parameters.
* Floating-point numbers are modelled by exact arithmetic (`ℚ` for stored
  emotion weights, `ℝ` for the `exp`/`sqrt` computations of the sampler).
-/

/-- Source constant `STRESS_ACCENTS = '́̀'`: the combining acute accent
(U+0301) followed by the combining grave accent (U+0300). -/
def stressAccents : List Char := [Char.ofNat 769, Char.ofNat 768]

/-- Membership in `STRESS_ACCENTS`. -/
def isAccentChar (c : Char) : Bool := c == Char.ofNat 769 || c == Char.ofNat 768

/-- Source constant `VOWELS = "аеёиоуыэюя"`. -/
def ruVowels : List Char := ['а', 'е', 'ё', 'и', 'о', 'у', 'ы', 'э', 'ю', 'я']

/-- Membership in `VOWELS`. -/
def isRuVowel (c : Char) : Bool := ruVowels.contains c

/-- The consonant alphabet of `squash_duplicate_consonants`
(`[бвгджзйклмнпрстфхцчшщ]`). -/
def squashCons : List Char :=
  ['б', 'в', 'г', 'д', 'ж', 'з', 'й', 'к', 'л', 'м', 'н', 'п', 'р', 'с', 'т',
   'ф', 'х', 'ц', 'ч', 'ш', 'щ']

/-- Python `\s` restricted to the whitespace characters this code can meet. -/
def isSpaceChar (c : Char) : Bool := c == ' ' || c == '\t' || c == '\n' || c == '\r'

/-- Python `\w` (Unicode word character: letters, digits, underscore)
restricted to the alphabets this repository processes: ASCII alphanumerics,
underscore, and Russian letters.  The combining stress marks are *not* word
characters (Python classifies combining marks as non-alphanumeric), which is
why the source regexes extend the class with `{stress_accents()}` explicitly. -/
def isWordChar (c : Char) : Bool :=
  (('a' ≤ c && c ≤ 'z') || ('A' ≤ c && c ≤ 'Z') || ('0' ≤ c && c ≤ '9') || c == '_'
    || ('а' ≤ c && c ≤ 'я') || ('А' ≤ c && c ≤ 'Я') || c == 'ё' || c == 'Ё')

/-- The class `[\w{stress_accents()}]` used by the last-word regexes. -/
def isWA (c : Char) : Bool := isWordChar c || isAccentChar c

/-- Python `str.lower()` on the alphabets this repository processes
(ASCII and Russian). -/
def toLowerRu (c : Char) : Char :=
  if 'A' ≤ c && c ≤ 'Z' then Char.ofNat (c.toNat + 32)
  else if 'А' ≤ c && c ≤ 'Я' then Char.ofNat (c.toNat + 32)
  else if c == 'Ё' then 'ё'
  else c

/-- Python `str.strip()`: drop leading and trailing whitespace. -/
def strip (s : List Char) : List Char :=
  ((s.dropWhile isSpaceChar).reverse.dropWhile isSpaceChar).reverse

/-- Source `remove_accents`: delete the two combining stress marks
(`str.translate` with a deletion table for `STRESS_ACCENTS`). -/
def remove_accents (s : List Char) : List Char := s.filter (fun c => !(isAccentChar c))

/-- Source `squash_duplicate_consonants`:
`re.sub(r'([бвгджзйклмнпрстфхцчшщ])\1+', r'\1', text)` collapses every run of
two or more identical consonants from the fixed alphabet into one. -/
def squash_duplicate_consonants : List Char → List Char
  | [] => []
  | [c] => [c]
  | a :: b :: rest =>
    if a == b && squashCons.contains a then squash_duplicate_consonants (b :: rest)
    else a :: squash_duplicate_consonants (b :: rest)

/-- Python `str.replace(pat, repl)`, written with an explicit structural fuel
so that it reduces inside the kernel: every recursive step consumes at least
one character of `s`, so any `fuel ≥ s.length` gives the same result.  The
fuel-exhaustion branch is unreachable for the initial fuel `s.length` used by
`replaceAll`. -/
def replaceAllFuel (pat repl : List Char) : Nat → List Char → List Char
  | _, [] => []
  | 0, s => s
  | fuel + 1, c :: rest =>
    if pat ≠ [] && pat.isPrefixOf (c :: rest) then
      repl ++ replaceAllFuel pat repl fuel ((c :: rest).drop pat.length)
    else
      c :: replaceAllFuel pat repl fuel rest

/-- Python `str.replace(pat, repl)`: replace every non-overlapping occurrence
of `pat`, scanning left to right.  The source only calls it with non-empty
literal patterns; for `pat = []` we return the string unchanged. -/
def replaceAll (pat repl : List Char) (s : List Char) : List Char :=
  replaceAllFuel pat repl s.length s

/-- Source `unify_endings`: the ordered substitutions of
`OTHER_SUBSTITUTION_PATTERNS` (`ий→и`, `ый→ы`, `тс→ц`, `тьс→ц`, `ь→`),
applied in dictionary insertion order. -/
def unify_endings (s : List Char) : List Char :=
  replaceAll ['ь'] []
    (replaceAll ['т', 'ь', 'с'] ['ц']
      (replaceAll ['т', 'с'] ['ц']
        (replaceAll ['ы', 'й'] ['ы']
          (replaceAll ['и', 'й'] ['и'] s))))

/-- Source `VOWEL_UNIFICATION` translation table: `str.maketrans("яэыёю", "аеиоу")`. -/
def vowelUnify (s : List Char) : List Char :=
  s.map (fun c =>
    if c == 'я' then 'а'
    else if c == 'э' then 'е'
    else if c == 'ы' then 'и'
    else if c == 'ё' then 'о'
    else if c == 'ю' then 'у'
    else c)

/-- The character filter of `extract_rhyme_key`:
`re.sub(fr'[^\w\s{STRESS_ACCENTS}]', '', ...)` keeps exactly the word
characters, whitespace and stress marks. -/
def keepRhymeChar (c : Char) : Bool := isWordChar c || isSpaceChar c || isAccentChar c

/-- Positions `i` of `s` at which a vowel is immediately followed by a stress
mark — the match starts of `re.finditer(f"[{VOWELS}][{STRESS_ACCENTS}]", s)`.
Two valid starts are never adjacent (an accent is not a vowel), so the
non-overlapping scan of `finditer` finds every such position. -/
def stressMatchStarts (s : List Char) : List Nat :=
  (List.range s.length).filter
    (fun i => isRuVowel (s.getD i ' ') && isAccentChar (s.getD (i + 1) ' '))

/-- Source `extract_rhyme_key` (`preprocessing_utils.py`): lower-case, strip
punctuation, locate the rightmost stressed vowel (`matches[-1].start()`); if
none return `None`; otherwise take the text from there to the end of that
whitespace-delimited token (`post_stress_part.split()[0]` — the dropped part
starts with a vowel, hence with a non-space) and normalize it with
`remove_accents`, `squash_duplicate_consonants`, `unify_endings`, the vowel
translation table, and a final `strip`. -/
def extract_rhyme_key (accentedLine : List Char) : Option (List Char) :=
  let cleaned := (accentedLine.map toLowerRu).filter keepRhymeChar
  match (stressMatchStarts cleaned).getLast? with
  | none => none
  | some i =>
    let rhymePart := (cleaned.drop i).takeWhile (fun c => !(isSpaceChar c))
    some (strip (vowelUnify (unify_endings
      (squash_duplicate_consonants (remove_accents rhymePart)))))

/-- Decomposition computed by the last-word regex
`fr'\b[\w{A}]+\b[^\w{A}]*$'` (with `A` the stress marks) of `find_last_word`
and `replace_last_word`.  Analysis of the pattern: the `[^\w{A}]*$` tail must
cover exactly the maximal trailing run of characters outside `[\w{A}]`
(starting any later would put a non-`\w` character to the left of the required
word boundary, starting earlier is impossible because the class excludes the
run); the `\b` before it therefore demands a `\w` character right before that
trailing run; the `[\w{A}]+` body then extends left over the maximal run of
class characters, and the leading `\b` puts the match start at the first `\w`
character of that run (combining accents are in the class but are not `\w`, so
accents at the head of the run stay outside the match).  Returns
`(prefix, matchedRun, trailing)` with the match being `matchedRun ++ trailing`,
or `none` when the pattern has no match in the line. -/
def lastWordMatch (line : List Char) : Option (List Char × List Char × List Char) :=
  let rev := line.reverse
  let nrev := rev.takeWhile (fun c => !(isWA c))
  let rest := rev.dropWhile (fun c => !(isWA c))
  match rest with
  | [] => none
  | w :: _ =>
    if isWordChar w then
      let runRev := rest.takeWhile isWA
      let after := rest.dropWhile isWA
      let matched := (runRev.reverse).dropWhile (fun c => !(isWordChar c))
      let pre := after.reverse ++ (runRev.reverse).takeWhile (fun c => !(isWordChar c))
      some (pre, matched, nrev.reverse)
    else none

/-- Source `PoemPostprocessor.find_last_word`: `match.group()` of the last-word
regex — the final word run *together with* the trailing non-word characters —
or `None` when there is no match. -/
def find_last_word (line : List Char) : Option (List Char) :=
  match lastWordMatch line with
  | none => none
  | some (_, run, trailing) => some (run ++ trailing)

/-- Source `PoemPostprocessor.replace_last_word`: `re.sub` of the last-word
regex by `replacement` — the matched suffix (final word run plus trailing
non-word characters) is replaced, text before the match is kept; a line
without a match is returned unchanged. -/
def replace_last_word (line replacement : List Char) : List Char :=
  match lastWordMatch line with
  | none => line
  | some (pre, _, _) => pre ++ replacement

/-- One entry of the word-ending dictionary (`word_endings_dict.json`): the
fields this core reads are `word` and `emotions`; emotion weights are stored
as (decimal) rationals. -/
structure WordEntry where
  word : List Char
  emotions : List (String × ℚ)
deriving DecidableEq, Repr

instance : Inhabited WordEntry := ⟨⟨[], []⟩⟩

/-- `self.word_endings_dict.get(rhyme_key, [])`: association-list lookup with
default `[]`. -/
def dictGet (dict : List (List Char × List WordEntry)) (key : List Char) :
    List WordEntry :=
  match dict.find? (fun p => p.1 == key) with
  | some p => p.2
  | none => []

/-- Source `PoemPostprocessor.find_candidates`.  `words_to_exclude` has Python
type `list[str | None]`, modelled as `List (Option (List Char))`; the word of
an entry is excluded when `some word` is listed.  When every entry of the key
would be excluded (in particular when the key is absent), the exclusion filter
is skipped and the unfiltered list is returned. -/
def find_candidates (dict : List (List Char × List WordEntry)) (key : List Char)
    (wordsToExclude : List (Option (List Char))) : List WordEntry :=
  let candidates := dictGet dict key
  if candidates.all (fun c => wordsToExclude.contains (some c.word)) then
    candidates
  else
    candidates.filter (fun c => !(wordsToExclude.contains (some c.word)))

/-- Source enum `RhymeScheme` (`postprocessing.py`). -/
inductive RhymeScheme
  | ABAB
  | ABBA
  | AABB
  | BACA
deriving DecidableEq, Repr

/-- The `value` string of a `RhymeScheme` member. -/
def RhymeScheme.value : RhymeScheme → List Char
  | .ABAB => ['A', 'B', 'A', 'B']
  | .ABBA => ['A', 'B', 'B', 'A']
  | .AABB => ['A', 'A', 'B', 'B']
  | .BACA => ['B', 'A', 'C', 'A']

/-- `rhyme_groups.setdefault(letter, []).append(idx_global)`: append a value to
the letter's list, creating the group at the end when the letter is new
(Python dicts preserve insertion order). -/
def insertGroup : List (Char × List Nat) → Char → Nat → List (Char × List Nat)
  | [], c, v => [(c, [v])]
  | (c1, vs) :: rest, c, v =>
    if c1 == c then (c1, vs ++ [v]) :: rest
    else (c1, vs) :: insertGroup rest c v

/-- The `rhyme_groups` dictionary built by `enforce_rhyme_scheme` for one
scheme block: walk the scheme letters, give letter at in-block position `t`
the global index `off + t` (`off = i * scheme_length`), keeping only indices
below the number of lines `n`. -/
def rhymeGroupsAux (n : Nat) : List Char → Nat → List (Char × List Nat) →
    List (Char × List Nat)
  | [], _, acc => acc
  | c :: cs, off, acc =>
    rhymeGroupsAux n cs (off + 1) (if off < n then insertGroup acc c off else acc)

/-- Scheme groups of the block starting at global index `off`, for a poem of
`n` lines. -/
def rhymeGroups (scheme : List Char) (off n : Nat) : List (Char × List Nat) :=
  rhymeGroupsAux n scheme off []

/-- Association lookup in a group dictionary (default `[]`). -/
def groupGet (gs : List (Char × List Nat)) (c : Char) : List Nat :=
  match gs.find? (fun p => p.1 == c) with
  | some p => p.2
  | none => []

/-- The state threaded through `enforce_rhyme_scheme`: the `corrected_lines`
list, the `self.used_words` ledger (`mapping letter → set of words`, the set
modelled as a duplicate-free list), and the number of random draws consumed so
far (the injected random generator is an oracle indexed by this counter). -/
structure EnforceState where
  corrected : List (List Char)
  used : List (Char × List (List Char))
  draws : Nat
deriving Repr

/-- `self.used_words[letter]` membership set (missing letter ↦ empty set;
`letter in self.used_words and chosen in self.used_words[letter]` is exactly
membership in this list). -/
def usedGet (used : List (Char × List (List Char))) (letter : Char) :
    List (List Char) :=
  match used.find? (fun p => p.1 == letter) with
  | some p => p.2
  | none => []

/-- `self.used_words.setdefault(letter, set()).add(chosen_word)`. -/
def usedAdd (used : List (Char × List (List Char))) (letter : Char)
    (w : List Char) : List (Char × List (List Char)) :=
  match used with
  | [] => [(letter, [w])]
  | (c, ws) :: rest =>
    if c == letter then (c, if ws.contains w then ws else ws ++ [w]) :: rest
    else (c, ws) :: usedAdd rest letter w

/-- A `Chooser` stands for `self.choose_word_top_p(candidates, poem_emotion)`
driven by the process-wide random generator: given the candidate list, the
target emotion and the index of the random draw, it yields the chosen word.
`choose_word_top_p` itself is embedded separately below; the enforcement
theorems quantify over every chooser. -/
def Chooser : Type :=
  List WordEntry → List (String × ℚ) → Nat → List Char

/-- The bounded collision-retry loop of `enforce_rhyme_scheme` (lines
138–141): while the drawn word is already in the ledger set for this letter
and fewer than 5 retries have happened, draw again.  `fuel` is the number of
retries still allowed (`5 - attempts` in the source; the loop is entered with
`fuel = 5`), so the loop condition `attempts < 5` is `fuel > 0`, which makes
the recursion structural.  Returns the accepted word and the new draw
counter. -/
def retryLoop (choose : Chooser) (cands : List WordEntry)
    (emotion : List (String × ℚ)) (usedSet : List (List Char)) :
    Nat → List Char → Nat → List Char × Nat
  | 0, chosen, k => (chosen, k)
  | fuel + 1, chosen, k =>
    if usedSet.contains chosen then
      retryLoop choose cands emotion usedSet fuel (choose cands emotion k) (k + 1)
    else (chosen, k)

/-- Body of `for idx in indices[1:]` (source lines 130–144): skip the line if
its own rhyme key already equals the group key, otherwise draw a word, run the
collision-retry loop, record the word in the ledger and substitute the line's
last word. -/
def processTarget (choose : Chooser) (cands : List WordEntry)
    (emotion : List (String × ℚ)) (letter : Char) (key : List Char)
    (lines : List (List Char)) (st : EnforceState) (idx : Nat) : EnforceState :=
  let original := lines.getD idx []
  if extract_rhyme_key original = some key then st
  else
    let first := choose cands emotion st.draws
    let wk := retryLoop choose cands emotion (usedGet st.used letter) 5 first
      (st.draws + 1)
    { corrected := st.corrected.set idx (replace_last_word original wk.1)
      used := usedAdd st.used letter wk.1
      draws := wk.2 }

/-- Body of `for letter, indices in rhyme_groups.items()` (source lines
112–144): take the group's first index as reference line, extract its rhyme
key from the accented text (`if not rhyme_key: continue` — `None` and the
empty string are both falsy), query candidates excluding
`find_last_word(ref_line)`, skip if empty, then process the remaining
indices. -/
def processGroup (dict : List (List Char × List WordEntry))
    (accentFn : List Char → List Char) (choose : Chooser)
    (emotion : List (String × ℚ)) (lines : List (List Char))
    (st : EnforceState) : Char × List Nat → EnforceState
  | (letter, indices) =>
    match indices with
    | [] => st
    | refIdx :: rest =>
      let refLine := lines.getD refIdx []
      match extract_rhyme_key (accentFn refLine) with
      | none => st
      | some key =>
        if key = [] then st
        else
          let cands := find_candidates dict key [find_last_word refLine]
          if cands = [] then st
          else rest.foldl (processTarget choose cands emotion letter key lines) st

/-- One iteration of the outer block loop (source lines 102–144): clear the
used-words ledger, build the block's rhyme groups, and process each group. -/
def processBlock (dict : List (List Char × List WordEntry))
    (accentFn : List Char → List Char) (choose : Chooser)
    (emotion : List (String × ℚ)) (lines : List (List Char))
    (scheme : List Char) (st : EnforceState) (i : Nat) : EnforceState :=
  let st1 : EnforceState := { st with used := [] }
  (rhymeGroups scheme (i * scheme.length) lines.length).foldl
    (processGroup dict accentFn choose emotion lines) st1

/-- Source `PoemPostprocessor.enforce_rhyme_scheme`.  `dict` is the loaded
word-ending dictionary, `accentFn` the injected stress annotator
(`self._accent_text`), `choose` the injected sampler (see `Chooser`), `used0`
the residual content of the instance field `self.used_words` when the call
starts, and `k0` the starting position of the random-draw oracle.  Returns
`corrected_lines`: a copy of `poem_lines` with the selected substitutions
applied; the blocks iterate `i` over `range((n + L - 1) // L)`. -/
def enforce_rhyme_scheme (dict : List (List Char × List WordEntry))
    (accentFn : List Char → List Char) (choose : Chooser)
    (poemLines : List (List Char)) (scheme : RhymeScheme)
    (emotion : List (String × ℚ)) (used0 : List (Char × List (List Char)))
    (k0 : Nat) : List (List Char) :=
  let s := scheme.value
  let n := poemLines.length
  let numBlocks := (n + s.length - 1) / s.length
  ((List.range numBlocks).foldl
    (processBlock dict accentFn choose emotion poemLines s)
    ⟨poemLines, used0, k0⟩).corrected

/-- The punctuation class of `split_long_lines`: `[,;:—–…]`. -/
def isSplitPunct (c : Char) : Bool :=
  c == ',' || c == ';' || c == ':' || c == '—' || c == '–' || c == '…'

/-- `punctuation_pattern.split(line)` and `punctuation_pattern.findall(line)`
combined: returns the text before the first punctuation mark and the list of
(mark, following text) groups, so that the original line is the first part
followed by each mark and its part. -/
def splitPunct : List Char → List Char × List (Char × List Char)
  | [] => ([], [])
  | c :: rest =>
    let fg := splitPunct rest
    if isSplitPunct c then ([], (c, fg.1) :: fg.2)
    else (c :: fg.1, fg.2)

/-- `enumerate(parts)` together with the `punctuations[idx]` access of the
loop: each part is paired with the punctuation mark that followed it in the
line (`none` for the final part, where `idx < len(punctuations)` fails). -/
def partPairs (first : List Char) : List (Char × List Char) →
    List (List Char × Option Char)
  | [] => [(first, none)]
  | (q, p) :: rest => (first, some q) :: partPairs p rest

/-- `punctuations[idx] + " "` when a mark exists, nothing for the last part. -/
def punctTail : Option Char → List Char
  | none => []
  | some q => [q, ' ']

/-- Loop state of `split_long_lines`: `(temp_line, temp_syllables, split_made,
new_lines)`. -/
def SplitState : Type := List Char × Nat × Bool × List (List Char)

/-- Body of `for idx, part in enumerate(parts)` (source lines 172–185).
`cs` is `count_syllables` — syllable counting through the external `pyphen`
hyphenation dictionary, injected as a parameter. -/
def splitStep (cs : List Char → Nat) (maxSyl : Nat) (st : SplitState)
    (pp : List Char × Option Char) : SplitState :=
  let s := cs (strip pp.1)
  if st.2.1 + s ≤ maxSyl ∨ st.1 = [] then
    (st.1 ++ strip pp.1 ++ punctTail pp.2, st.2.1 + s, st.2.2.1, st.2.2.2)
  else
    (strip pp.1 ++ punctTail pp.2, s, true, st.2.2.2 ++ [strip st.1])

/-- Processing of one line by `split_long_lines`: lines within the syllable
limit pass through; over-limit lines are split at punctuation and rejoined
greedily; when no split was made the assembled line is replaced by the
original (`new_lines[-1] = line`). -/
def splitLongLine (cs : List Char → Nat) (maxSyl : Nat) (line : List Char) :
    List (List Char) :=
  if maxSyl < cs line then
    let fg := splitPunct line
    let res := (partPairs fg.1 fg.2).foldl (splitStep cs maxSyl) ([], 0, false, [])
    let outLines := res.2.2.2 ++ [strip res.1]
    if res.2.2.1 then outLines else outLines.dropLast ++ [line]
  else [line]

/-- Source `PoemPostprocessor.split_long_lines`: concatenation of each line's
processing, in order. -/
def split_long_lines (cs : List Char → Nat) (maxSyl : Nat) :
    List (List Char) → List (List Char)
  | [] => []
  | line :: rest => splitLongLine cs maxSyl line ++ split_long_lines cs maxSyl rest

/-- `vec.get(e, 0.0)`: emotion weight lookup with default 0. -/
def emotionGet (v : List (String × ℚ)) (e : String) : ℚ :=
  match v.find? (fun p => p.1 == e) with
  | some p => p.2
  | none => 0

/-- The fixed emotion axis of `_euclidean_distance`. -/
def emotionAxes : List String :=
  ["anger", "no_emotion", "fear", "joy", "sadness", "surprise"]

/-- Source `PoemPostprocessor._euclidean_distance`: `np.linalg.norm(v1 - v2)`
over the six fixed emotion coordinates, missing keys defaulting to 0. -/
noncomputable def euclidean_distance (v1 v2 : List (String × ℚ)) : ℝ :=
  Real.sqrt ((emotionAxes.map
    (fun e => ((emotionGet v1 e : ℝ) - (emotionGet v2 e : ℝ)) ^ 2)).sum)

/-- The unnormalized weight `exp(-distance)` of one candidate. -/
noncomputable def candWeight (target : List (String × ℚ)) (c : WordEntry) : ℝ :=
  Real.exp (-(euclidean_distance c.emotions target))

/-- The normalized probability `probs[i]` of candidate `i`
(`probs = exp(-distances); probs /= probs.sum()`). -/
noncomputable def candProb (cands : List WordEntry) (target : List (String × ℚ))
    (i : Nat) : ℝ :=
  candWeight target (cands.getD i default) / ((cands.map (candWeight target)).sum)

open Classical in
/-- Insertion into a probability-descending index list; an index is inserted
behind every index of strictly larger or equal probability, so the resulting
order is probability-descending with ties kept in index order (the tie order
among exactly equal keys is unspecified by `np.argsort`; index order is the
modelled choice). -/
noncomputable def insertDescend (p : Nat → ℝ) (i : Nat) :
    List Nat → List Nat
  | [] => [i]
  | j :: rest => if p j < p i then i :: j :: rest else j :: insertDescend p i rest

/-- `np.argsort(-probs)`: the indices `0 … n-1` sorted by descending
probability. -/
noncomputable def argsortDescend (p : Nat → ℝ) (n : Nat) : List Nat :=
  (List.range n).foldl (fun acc i => insertDescend p i acc) []

open Classical in
/-- `sorted_indices[cumulative_probs <= top_p]`: the boolean mask over the
running cumulative sums, applied to the sorted index list; `acc` is the
cumulative probability before the current position. -/
noncomputable def cumMask (p : Nat → ℝ) (topP : ℝ) :
    List Nat → ℝ → List Nat
  | [], _ => []
  | j :: rest, acc =>
    if acc + p j ≤ topP then j :: cumMask p topP rest (acc + p j)
    else cumMask p topP rest (acc + p j)

/-- `top_indices` of `choose_word_top_p` including the degenerate fallback
`[sorted_indices[0]]` when the mask keeps nothing. -/
noncomputable def top_indices (cands : List WordEntry)
    (target : List (String × ℚ)) (topP : ℝ) : List Nat :=
  let p := candProb cands target
  let sorted := argsortDescend p cands.length
  let masked := cumMask p topP sorted 0
  if masked = [] then sorted.take 1 else masked

/-- Source `PoemPostprocessor.choose_word_top_p`.
`np.random.choice(top_indices)` draws one position of `top_indices` uniformly;
the process-wide generator is modelled by the draw oracle index `draw`, the
drawn position being `draw` reduced modulo the number of kept indices. -/
noncomputable def choose_word_top_p (cands : List WordEntry)
    (target : List (String × ℚ)) (topP : ℝ) (draw : Nat) : List Char :=
  let t := top_indices cands target topP
  (cands.getD (t.getD (draw % t.length) 0) default).word

open Classical in
/-- Modelled from the spec's words, for comparison with `top_indices`: "the
shortest prefix of the probability-descending candidate list whose cumulative
probability first reaches or exceeds topP" — walk the sorted indices and stop
at (including) the first position where the cumulative probability reaches
`topP`. -/
noncomputable def specNucleus (p : Nat → ℝ) (topP : ℝ) :
    List Nat → ℝ → List Nat
  | [], _ => []
  | j :: rest, acc =>
    if topP ≤ acc + p j then [j] else j :: specNucleus p topP rest (acc + p j)

open Classical in
/-- The longest prefix of the sorted index list along which the cumulative
probability stays `≤ topP` (the corrected description of the kept set). -/
noncomputable def cumLePfx (p : Nat → ℝ) (topP : ℝ) :
    List Nat → ℝ → List Nat
  | [], _ => []
  | j :: rest, acc =>
    if acc + p j ≤ topP then j :: cumLePfx p topP rest (acc + p j) else []

/-! ## General helper lemmas -/

theorem foldlPreserve {α β : Type} {P : α → Prop} {f : α → β → α} :
    ∀ {l : List β} {s : α}, P s → (∀ s b, b ∈ l → P s → P (f s b)) →
      P (l.foldl f s) := by
  intro l
  induction l with
  | nil => intro s h0 _; exact h0
  | cons x xs ih =>
    intro s h0 h
    exact ih (h s x (List.mem_cons_self x xs) h0)
      (fun s b hb hs => h s b (List.mem_cons_of_mem x hb) hs)

theorem getD_set_ne {l : List (List Char)} {i j : Nat} {v d : List Char}
    (h : i ≠ j) : (l.set i v).getD j d = l.getD j d := by
  induction l generalizing i j with
  | nil => simp
  | cons x xs ih =>
    cases i with
    | zero =>
      cases j with
      | zero => exact absurd rfl h
      | succ j => simp [List.set, List.getD]
    | succ i =>
      cases j with
      | zero => simp [List.set, List.getD]
      | succ j =>
        simp only [List.set, List.getD_cons_succ]
        exact ih (fun hc => h (by rw [hc]))

/-! ## Claim C4: candidate lookup with exclusion fallback -/

/-- Claim C4: `findCandidates` returns the key's full entry list with the
excluded words filtered out when at least one entry survives the filter,
returns the unfiltered full list when filtering would remove every entry,
returns the empty sequence for a key absent from the index, and is never
empty for a key with at least two entries and exactly one excluded word. -/
theorem find_candidates_spec (dict : List (List Char × List WordEntry))
    (key : List Char) (excl : List (Option (List Char))) :
    ((∀ p ∈ dict, p.1 ≠ key) → find_candidates dict key excl = []) ∧
    ((∃ e ∈ dictGet dict key, ¬ excl.contains (some e.word)) →
      find_candidates dict key excl
        = (dictGet dict key).filter (fun c => !(excl.contains (some c.word)))) ∧
    ((∀ e ∈ dictGet dict key, excl.contains (some e.word)) →
      find_candidates dict key excl = dictGet dict key) ∧
    (2 ≤ (dictGet dict key).length → ∀ x, excl = [x] →
      find_candidates dict key excl ≠ []) := by
  refine ⟨?_, ?_, ?_, ?_⟩
  · intro habsent
    have hget : dictGet dict key = [] := by
      unfold dictGet
      have : dict.find? (fun p => p.1 == key) = none := by
        rw [List.find?_eq_none]
        intro p hp
        simpa using habsent p hp
      rw [this]
    unfold find_candidates
    rw [hget]
    simp
  · rintro ⟨e, he, hne⟩
    unfold find_candidates
    have hall : ¬ ((dictGet dict key).all
        (fun c => excl.contains (some c.word)) = true) := by
      rw [List.all_eq_true]
      intro h
      exact hne (h e he)
    simp only [hall, if_false]
    simp
  · intro hall
    unfold find_candidates
    have : (dictGet dict key).all (fun c => excl.contains (some c.word)) = true := by
      rw [List.all_eq_true]
      exact hall
    simp only [this, if_true]
  · intro hlen x hx
    unfold find_candidates
    by_cases hall : (dictGet dict key).all (fun c => excl.contains (some c.word)) = true
    · simp only [hall, if_true]
      intro hnil
      rw [hnil] at hlen
      simp at hlen
    · simp only [hall, if_false]
      rw [List.all_eq_true] at hall
      push_neg at hall
      obtain ⟨e, he, hne⟩ := hall
      intro hnil
      have hmem : e ∈ (dictGet dict key).filter
          (fun c => !(excl.contains (some c.word))) := by
        rw [List.mem_filter]
        exact ⟨he, by simpa using hne⟩
      simp only [show (false = true) = False by simp, if_false] at hnil
      rw [hnil] at hmem
      exact absurd hmem (List.not_mem_nil e)

/-- Concrete dictionary for the C4 witness. -/
def exC4Dict : List (List Char × List WordEntry) :=
  [("ук".data, [⟨"лук".data, []⟩, ⟨"сук".data, []⟩])]

/-- Witness for C4: an absent key yields `[]`, and a key with two entries and
one excluded word yields a non-empty list. -/
theorem find_candidates_spec_witness :
    find_candidates exC4Dict "ом".data [some "дом".data] = [] ∧
    find_candidates exC4Dict "ук".data [some "лук".data] ≠ [] :=
  ⟨(find_candidates_spec exC4Dict "ом".data [some "дом".data]).1 (by decide),
   (find_candidates_spec exC4Dict "ук".data [some "лук".data]).2.2.2
     (by decide) (some "лук".data) rfl⟩

/-! ## Claim C5: rhyme-key extraction -/

/-- The cleaned line of `extract_rhyme_key`: lower-cased, punctuation
removed. -/
def cleanedOf (line : List Char) : List Char :=
  (line.map toLowerRu).filter keepRhymeChar

/-- A vowel immediately followed by a stress mark at position `i`. -/
def stressAt (s : List Char) (i : Nat) : Bool :=
  isRuVowel (s.getD i ' ') && isAccentChar (s.getD (i + 1) ' ')

/-- The normalization pipeline applied to the post-stress token, in the
source's order. -/
def rhymeNormalize (s : List Char) : List Char :=
  strip (vowelUnify (unify_endings (squash_duplicate_consonants (remove_accents s))))

theorem extract_rhyme_key_eq (line : List Char) :
    extract_rhyme_key line =
      match ((List.range (cleanedOf line).length).filter
          (stressAt (cleanedOf line))).getLast? with
      | none => none
      | some i => some (rhymeNormalize
          (((cleanedOf line).drop i).takeWhile (fun c => !(isSpaceChar c)))) := rfl

theorem stressAt_lt_length {s : List Char} {i : Nat} (h : stressAt s i = true) :
    i < s.length := by
  by_contra hge
  push_neg at hge
  have hd : s.getD i ' ' = ' ' := List.getD_eq_default s ' ' hge
  unfold stressAt at h
  rw [hd] at h
  simp [isRuVowel, ruVowels] at h

theorem getLast_filter_range_none {n : Nat} {f : Nat → Bool} :
    ((List.range n).filter f).getLast? = none ↔ ∀ i < n, ¬ f i = true := by
  constructor
  · intro h i hi hf
    have hnil : (List.range n).filter f = [] := by
      cases hcase : (List.range n).filter f with
      | nil => rfl
      | cons a l => rw [hcase] at h; simp [List.getLast?] at h
    rw [List.filter_eq_nil] at hnil
    exact hnil i (List.mem_range.mpr hi) hf
  · intro h
    have hnil : (List.range n).filter f = [] := by
      rw [List.filter_eq_nil]
      intro a ha
      exact h a (List.mem_range.mp ha)
    rw [hnil]
    rfl

theorem getLast_filter_range_some {n : Nat} {f : Nat → Bool} {i : Nat} :
    ((List.range n).filter f).getLast? = some i ↔
      (f i = true ∧ i < n ∧ ∀ j, i < j → j < n → ¬ f j = true) := by
  induction n with
  | zero =>
    rw [List.range_zero, List.filter_nil]
    simp
  | succ n ih =>
    rw [List.range_succ, List.filter_append]
    cases hfn : f n with
    | true =>
      rw [show List.filter f [n] = [n] by simp [hfn]]
      rw [List.getLast?_concat]
      constructor
      · intro h
        have hin : i = n := by injection h; omega
        subst hin
        exact ⟨hfn, Nat.lt_succ_self i, fun j hj1 hj2 => by omega⟩
      · rintro ⟨hfi, hlt, hmax⟩
        rcases Nat.lt_or_ge i n with hlt2 | hge
        · exact absurd hfn (hmax n hlt2 (Nat.lt_succ_self n))
        · have hin : i = n := by omega
          rw [hin]
    | false =>
      rw [show List.filter f [n] = [] by simp [hfn]]
      rw [List.append_nil, ih]
      constructor
      · rintro ⟨hfi, hlt, hmax⟩
        refine ⟨hfi, Nat.lt_succ_of_lt hlt, fun j hj1 hj2 => ?_⟩
        rcases Nat.lt_or_ge j n with h1 | h1
        · exact hmax j hj1 h1
        · have hjn : j = n := by omega
          rw [hjn, hfn]
          simp
      · rintro ⟨hfi, hlt, hmax⟩
        have hin : i ≠ n := fun hc => by rw [hc, hfn] at hfi; exact absurd hfi (by simp)
        exact ⟨hfi, by omega, fun j hj1 hj2 => hmax j hj1 (Nat.lt_succ_of_lt hj2)⟩

/-- Claim C5: `extractRhymeKey` returns `none` exactly when the
punctuation-stripped, lower-cased line contains no vowel immediately followed
by a stress mark; otherwise it returns the substring from the rightmost such
stressed vowel through the end of that whitespace-delimited token, transformed
by stress-mark removal, duplicate-consonant squashing, ending unification and
vowel unification in that order, then trimmed. -/
theorem extract_rhyme_key_spec (line : List Char) :
    (extract_rhyme_key line = none ↔
      ∀ i < (cleanedOf line).length, ¬ stressAt (cleanedOf line) i = true) ∧
    (∀ i, stressAt (cleanedOf line) i = true →
      (∀ j, i < j → j < (cleanedOf line).length →
        ¬ stressAt (cleanedOf line) j = true) →
      extract_rhyme_key line = some (rhymeNormalize
        (((cleanedOf line).drop i).takeWhile (fun c => !(isSpaceChar c))))) := by
  constructor
  · rw [extract_rhyme_key_eq]
    cases hcase : ((List.range (cleanedOf line).length).filter
        (stressAt (cleanedOf line))).getLast? with
    | none =>
      simp only []
      constructor
      · intro _
        exact getLast_filter_range_none.mp hcase
      · intro _
        trivial
    | some i =>
      simp only []
      constructor
      · intro h
        exact absurd h (by simp)
      · intro hall
        have hsome := getLast_filter_range_some.mp hcase
        exact absurd hsome.1 (hall i hsome.2.1)
  · intro i hstress hmax
    rw [extract_rhyme_key_eq]
    have hlast : ((List.range (cleanedOf line).length).filter
        (stressAt (cleanedOf line))).getLast? = some i := by
      rw [getLast_filter_range_some]
      exact ⟨hstress, stressAt_lt_length hstress, hmax⟩
    rw [hlast]

/-- Witness for C5: the line `лу́к` has its rightmost (only) stressed vowel at
cleaned position 1 and gets rhyme key `ук`. -/
theorem extract_rhyme_key_spec_witness :
    (stressAt (cleanedOf "лу́к".data) 1 = true ∧
      ∀ j, 1 < j → j < (cleanedOf "лу́к".data).length →
        ¬ stressAt (cleanedOf "лу́к".data) j = true) ∧
    extract_rhyme_key "лу́к".data = some "ук".data := by
  have h1 : stressAt (cleanedOf "лу́к".data) 1 = true := by decide
  have h2b : ∀ j < (cleanedOf "лу́к".data).length, 1 < j →
      ¬ stressAt (cleanedOf "лу́к".data) j = true := by decide
  have h2 : ∀ j, 1 < j → j < (cleanedOf "лу́к".data).length →
      ¬ stressAt (cleanedOf "лу́к".data) j = true := fun j hj1 hj2 => h2b j hj2 hj1
  refine ⟨⟨h1, h2⟩, ?_⟩
  rw [(extract_rhyme_key_spec "лу́к".data).2 1 h1 h2]
  decide

/-! ## Claim C3: trailing-word replacement -/

theorem takeWhile_nil_of_all_not {q : Char → Bool} {l : List Char}
    (h : ∀ c ∈ l, q c = false) : l.takeWhile q = [] := by
  cases l with
  | nil => rfl
  | cons a l =>
    rw [List.takeWhile_cons, h a (List.mem_cons_self a l)]
    simp

theorem dropWhile_self_of_all_not {q : Char → Bool} {l : List Char}
    (h : ∀ c ∈ l, q c = false) : l.dropWhile q = l := by
  cases l with
  | nil => rfl
  | cons a l =>
    rw [List.dropWhile_cons, h a (List.mem_cons_self a l)]
    simp

theorem dropWhile_cons_prop {p : Char → Bool} {l : List Char} {x : Char}
    {xs : List Char} (h : l.dropWhile p = x :: xs) : p x = false := by
  induction l with
  | nil => simp at h
  | cons a l ih =>
    rw [List.dropWhile_cons] at h
    by_cases hpa : p a = true
    · rw [if_pos hpa] at h
      exact ih h
    · rw [if_neg hpa] at h
      injection h with h1 _
      rw [← h1]
      exact Bool.eq_false_iff.mpr hpa

theorem lastWordMatch_cons {line : List Char} {w : Char} {rest2 : List Char}
    (h : line.reverse.dropWhile (fun c => !(isWA c)) = w :: rest2)
    (hw : isWordChar w = true) :
    lastWordMatch line = some
      ((((w :: rest2).dropWhile isWA).reverse) ++
        ((((w :: rest2).takeWhile isWA).reverse).takeWhile (fun c => !(isWordChar c))),
       ((((w :: rest2).takeWhile isWA).reverse).dropWhile (fun c => !(isWordChar c))),
       (line.reverse.takeWhile (fun c => !(isWA c))).reverse) := by
  simp only [lastWordMatch, h, hw, if_true]

/-- Shared decomposition lemma for the last-word regex on accent-free lines
that contain at least one word character: the line splits as
`prefix ++ run ++ trailing` with `run` the non-empty final run of word
characters and `trailing` the final run of non-word characters, and
`lastWordMatch` returns exactly that decomposition. -/
theorem lastWordMatch_decomp (line : List Char)
    (hword : ∃ c ∈ line, isWordChar c = true)
    (hacc : ∀ c ∈ line, isAccentChar c = false) :
    ∃ p run t, line = p ++ run ++ t ∧ run ≠ [] ∧
      (∀ c ∈ run, isWordChar c = true) ∧ (∀ c ∈ t, isWordChar c = false) ∧
      (∀ d, p.getLast? = some d → isWA d = false) ∧
      lastWordMatch line = some (p, run, t) := by
  obtain ⟨c0, hc0mem, hc0⟩ := hword
  have hrestne : line.reverse.dropWhile (fun c => !(isWA c)) ≠ [] := by
    intro hnil
    have hall := List.dropWhile_eq_nil_iff.mp hnil
    have := hall c0 (List.mem_reverse.mpr hc0mem)
    simp [isWA, hc0] at this
  obtain ⟨w, rest2, hwrest⟩ := List.exists_cons_of_ne_nil hrestne
  have hmemline : ∀ c ∈ w :: rest2, c ∈ line := by
    intro c hc
    rw [← hwrest] at hc
    exact List.mem_reverse.mp ((List.dropWhile_sublist _).mem hc)
  have hwWA : isWA w = true := by
    have hh := dropWhile_cons_prop hwrest
    simpa using hh
  have hwword : isWordChar w = true := by
    have := hacc w (hmemline w (List.mem_cons_self w rest2))
    unfold isWA at hwWA
    rw [this] at hwWA
    simpa using hwWA
  have hrunW : ∀ c ∈ ((w :: rest2).takeWhile isWA).reverse, isWordChar c = true := by
    intro c hc
    rw [List.mem_reverse] at hc
    have hWA := List.mem_takeWhile_imp hc
    have hmem : c ∈ line := hmemline c ((List.takeWhile_sublist _).mem hc)
    have := hacc c hmem
    unfold isWA at hWA
    rw [this] at hWA
    simpa using hWA
  have hrunWnot : ∀ c ∈ ((w :: rest2).takeWhile isWA).reverse,
      (fun c => !(isWordChar c)) c = false := by
    intro c hc
    simp [hrunW c hc]
  refine ⟨((w :: rest2).dropWhile isWA).reverse,
    ((w :: rest2).takeWhile isWA).reverse,
    (line.reverse.takeWhile (fun c => !(isWA c))).reverse, ?_, ?_, hrunW, ?_, ?_, ?_⟩
  · conv_lhs => rw [← List.reverse_reverse line]
    conv_lhs => rw [← List.takeWhile_append_dropWhile (fun c => !(isWA c)) line.reverse]
    rw [hwrest]
    conv_lhs => rw [← List.takeWhile_append_dropWhile isWA (w :: rest2)]
    rw [List.reverse_append, List.reverse_append, List.append_assoc]
  · rw [List.takeWhile_cons, hwWA]
    simp
  · intro c hc
    rw [List.mem_reverse] at hc
    have := List.mem_takeWhile_imp hc
    unfold isWA at this
    simp only [Bool.not_eq_true', Bool.or_eq_false_iff] at this
    exact this.1
  · intro d hd
    rw [List.getLast?_eq_head?_reverse, List.reverse_reverse] at hd
    cases hafter : (w :: rest2).dropWhile isWA with
    | nil => rw [hafter] at hd; simp at hd
    | cons a l =>
      rw [hafter] at hd
      have hha := dropWhile_cons_prop hafter
      injection hd with hd
      rw [← hd]
      exact hha
  · rw [lastWordMatch_cons hwrest hwword]
    rw [takeWhile_nil_of_all_not hrunWnot, dropWhile_self_of_all_not hrunWnot]
    rw [List.append_nil]

/-- Counterexample for C3: for the line `мир.` (trailing word `мир` followed
by the non-word character `.`) and replacement `дом`, the result is `дом` —
the trailing full stop is deleted, not preserved: it no longer occurs
anywhere in the result. -/
theorem replace_last_word_counterexample :
    replace_last_word "мир.".data "дом".data = "дом".data ∧
    "мир.".data = "мир".data ++ ['.'] ∧
    '.' ∉ replace_last_word "мир.".data "дом".data := by
  refine ⟨by decide, by decide, by decide⟩

/-- Claim C3 as amended: replacing the line's trailing word substitutes the
last run of word characters *and deletes* the trailing non-word characters
after that run — the result is the text before the last word run followed by
the replacement; trailing punctuation and whitespace are not preserved.
(Stated for accent-free lines; stress marks never occur in the raw poem lines
this function is applied to.) -/
theorem replace_last_word_amended (line repl : List Char)
    (hword : ∃ c ∈ line, isWordChar c = true)
    (hacc : ∀ c ∈ line, isAccentChar c = false) :
    ∃ p run t, line = p ++ run ++ t ∧ run ≠ [] ∧
      (∀ c ∈ run, isWordChar c = true) ∧ (∀ c ∈ t, isWordChar c = false) ∧
      replace_last_word line repl = p ++ repl := by
  obtain ⟨p, run, t, hsplit, hne, hrun, ht, _, hmatch⟩ :=
    lastWordMatch_decomp line hword hacc
  refine ⟨p, run, t, hsplit, hne, hrun, ht, ?_⟩
  unfold replace_last_word
  rw [hmatch]

/-- Witness for C3 (amended): concrete run on `мир!` and `дом`. -/
theorem replace_last_word_amended_witness :
    (∃ c ∈ "мир!".data, isWordChar c = true) ∧
    (∀ c ∈ "мир!".data, isAccentChar c = false) ∧
    (∃ p run t, "мир!".data = p ++ run ++ t ∧ run ≠ [] ∧
      (∀ c ∈ run, isWordChar c = true) ∧ (∀ c ∈ t, isWordChar c = false) ∧
      replace_last_word "мир!".data "дом".data = p ++ "дом".data) := by
  have h1 : ∃ c ∈ "мир!".data, isWordChar c = true := ⟨'м', by decide, by decide⟩
  have h2 : ∀ c ∈ "мир!".data, isAccentChar c = false := by decide
  exact ⟨h1, h2, replace_last_word_amended "мир!".data "дом".data h1 h2⟩

/-! ## Claim C6: exclusion of the reference line's final word -/

/-- The plain final word of a line as described by the claim: the last run of
word characters, without any trailing non-word characters.  (Comparison
definition, written from the claim's words.) -/
def plainFinalWord (line : List Char) : List Char :=
  ((line.reverse.dropWhile (fun c => !(isWordChar c))).takeWhile isWordChar).reverse

/-- Concrete dictionary for the C6 theorems: the key `ир` holds the entries
`мир` and `пир`. -/
def exC6Dict : List (List Char × List WordEntry) :=
  [("ир".data, [⟨"мир".data, []⟩, ⟨"пир".data, []⟩])]

/-- Counterexample for C6: for the reference line `мир,` the word actually
passed for exclusion is `find_last_word`'s match `мир,` (trailing comma
included), which differs from the plain final word `мир`; consequently the
candidate query returns both entries of the key, the reference line's own
final word `мир` among them, although another candidate exists. -/
theorem exclusion_counterexample :
    find_last_word "мир,".data = some "мир,".data ∧
    plainFinalWord "мир,".data = "мир".data ∧
    some "мир,".data ≠ some (plainFinalWord "мир,".data) ∧
    (find_candidates exC6Dict "ир".data [find_last_word "мир,".data]).map
      (fun e => e.word) = ["мир".data, "пир".data] := by
  refine ⟨by decide, by decide, by decide, by decide⟩

theorem takeWhile_append_all {q : Char → Bool} {xs ys : List Char}
    (h : ∀ c ∈ xs, q c = true) :
    (xs ++ ys).takeWhile q = xs ++ ys.takeWhile q := by
  induction xs with
  | nil => rfl
  | cons a l ih =>
    rw [List.cons_append, List.takeWhile_cons, h a (List.mem_cons_self a l)]
    simp only [if_true, List.cons_append]
    rw [ih (fun c hc => h c (List.mem_cons_of_mem a hc))]

theorem getLast?_mem_of_ne_nil {l : List Char} (h : l ≠ []) :
    ∃ y, l.getLast? = some y ∧ y ∈ l := by
  have hrev : l.reverse ≠ [] := fun hr => h (List.reverse_eq_nil_iff.mp hr)
  obtain ⟨y, ys, hy⟩ := List.exists_cons_of_ne_nil hrev
  refine ⟨y, ?_, ?_⟩
  · rw [List.getLast?_eq_head?_reverse, hy]
    rfl
  · rw [← List.mem_reverse, hy]
    exact List.mem_cons_self y ys

/-- Claim C6 as amended: the word passed for exclusion is `find_last_word`'s
match — the final word run *plus its trailing non-word characters* — which
equals the plain final word exactly when the reference line ends in a word
character; in that case the reference line's final word is excluded from the
returned candidates whenever some entry of the key carries a different word.
When the line ends in punctuation or whitespace the excluded string matches no
dictionary word, and the reference's final word can be offered as a candidate
(see the counterexample). -/
theorem exclusion_effective_amended (line : List Char) (l0 : List Char)
    (c : Char) (dict : List (List Char × List WordEntry)) (key : List Char)
    (hline : line = l0 ++ [c]) (hc : isWordChar c = true)
    (hacc : ∀ x ∈ line, isAccentChar x = false) :
    find_last_word line = some (plainFinalWord line) ∧
    ((∃ e ∈ dictGet dict key, e.word ≠ plainFinalWord line) →
      ∀ e ∈ find_candidates dict key [find_last_word line],
        e.word ≠ plainFinalWord line) := by
  have hword : ∃ x ∈ line, isWordChar x = true := ⟨c, by rw [hline]; simp, hc⟩
  obtain ⟨p, run, t, hsplit, hne, hrun, ht, hplast, hmatch⟩ :=
    lastWordMatch_decomp line hword hacc
  have htnil : t = [] := by
    by_contra htne
    obtain ⟨y, hy, hymem⟩ := getLast?_mem_of_ne_nil htne
    have hlast1 : line.getLast? = some c := by rw [hline, List.getLast?_concat]
    have hlast2 : line.getLast? = some y := by
      rw [hsplit, List.getLast?_append, hy]
      rfl
    rw [hlast1] at hlast2
    injection hlast2 with hcy
    rw [hcy] at hc
    rw [ht y hymem] at hc
    exact absurd hc (by simp)
  have hfw : find_last_word line = some run := by
    unfold find_last_word
    rw [hmatch, htnil]
    simp
  have hpfw : plainFinalWord line = run := by
    unfold plainFinalWord
    rw [hsplit, htnil, List.append_nil, List.reverse_append]
    have hrevne : run.reverse ≠ [] := fun hr => hne (List.reverse_eq_nil_iff.mp hr)
    obtain ⟨a, l1, hal⟩ := List.exists_cons_of_ne_nil hrevne
    have haW : isWordChar a = true :=
      hrun a (List.mem_reverse.mp (hal ▸ List.mem_cons_self a l1))
    have hdrop : (run.reverse ++ p.reverse).dropWhile (fun c => !(isWordChar c))
        = run.reverse ++ p.reverse := by
      rw [hal, List.cons_append, List.dropWhile_cons, haW]
      simp
    rw [hdrop]
    rw [takeWhile_append_all (fun x hx =>
      hrun x (List.mem_reverse.mp hx))]
    have hptw : p.reverse.takeWhile isWordChar = [] := by
      cases hp : p.reverse with
      | nil => rfl
      | cons d l2 =>
        have hd : p.getLast? = some d := by
          rw [List.getLast?_eq_head?_reverse, hp]
          rfl
        have hdWA := hplast d hd
        have hdW : isWordChar d = false := by
          unfold isWA at hdWA
          simp only [Bool.or_eq_false_iff] at hdWA
          exact hdWA.1
        rw [List.takeWhile_cons, hdW]
        simp
    rw [hptw, List.append_nil, List.reverse_reverse]
  refine ⟨by rw [hfw, hpfw], ?_⟩
  rintro ⟨e, he, hew⟩ e2 he2
  rw [hfw] at he2
  unfold find_candidates at he2
  have hallf : (dictGet dict key).all
      (fun x => [some run].contains (some x.word)) = false := by
    rw [Bool.eq_false_iff]
    intro hall
    rw [List.all_eq_true] at hall
    have := hall e he
    simp only [List.contains_cons, List.contains_nil, Bool.or_false] at this
    rw [beq_iff_eq] at this
    injection this with hww
    rw [hpfw] at hew
    exact hew hww
  simp only [hallf, Bool.false_eq_true, if_false, List.mem_filter] at he2
  have := he2.2
  simp only [List.contains_cons, List.contains_nil, Bool.or_false] at this
  rw [hpfw]
  intro hww
  rw [hww] at this
  simp at this

/-- Witness for C6 (amended): concrete run on the line `мир` (ending in a
word character) and the two-entry dictionary: the exclusion removes `мир`. -/
theorem exclusion_effective_amended_witness :
    ("мир".data = "ми".data ++ ['р'] ∧ isWordChar 'р' = true ∧
      ∀ x ∈ "мир".data, isAccentChar x = false) ∧
    (find_last_word "мир".data = some (plainFinalWord "мир".data) ∧
    ((∃ e ∈ dictGet exC6Dict "ир".data, e.word ≠ plainFinalWord "мир".data) →
      ∀ e ∈ find_candidates exC6Dict "ир".data [find_last_word "мир".data],
        e.word ≠ plainFinalWord "мир".data)) := by
  have h1 : "мир".data = "ми".data ++ ['р'] := by decide
  have h2 : isWordChar 'р' = true := by decide
  have h3 : ∀ x ∈ "мир".data, isAccentChar x = false := by decide
  exact ⟨⟨h1, h2, h3⟩,
    exclusion_effective_amended "мир".data "ми".data 'р' exC6Dict "ир".data h1 h2 h3⟩

/-! ## Claim C7: block partitioning and letter grouping -/

/-- The global indices that the block walk starting at offset `off` assigns to
scheme letter `a`: position `t` of the scheme contributes `off + t` when the
letter matches and the global index is below the line count `n`. -/
def selIdx (n : Nat) : List Char → Nat → Char → List Nat
  | [], _, _ => []
  | c :: cs, off, a =>
    (if off < n ∧ c = a then [off] else []) ++ selIdx n cs (off + 1) a

theorem groupGet_cons_eq {c : Char} {vs : List Nat}
    {rest : List (Char × List Nat)} : groupGet ((c, vs) :: rest) c = vs := by
  unfold groupGet
  rw [List.find?_cons_of_pos _ (by simp)]

theorem groupGet_cons_ne {c a : Char} {vs : List Nat}
    {rest : List (Char × List Nat)} (h : a ≠ c) :
    groupGet ((c, vs) :: rest) a = groupGet rest a := by
  unfold groupGet
  rw [List.find?_cons_of_neg]
  simp only [beq_iff_eq]
  exact fun hc => h hc.symm

theorem groupGet_insertGroup (gs : List (Char × List Nat)) (c : Char) (v : Nat)
    (a : Char) :
    groupGet (insertGroup gs c v) a =
      if a = c then groupGet gs c ++ [v] else groupGet gs a := by
  induction gs with
  | nil =>
    by_cases hac : a = c
    · subst hac
      rw [if_pos rfl]
      unfold insertGroup
      rw [groupGet_cons_eq]
      rfl
    · rw [if_neg hac]
      unfold insertGroup
      rw [groupGet_cons_ne hac]
  | cons p rest ih =>
    obtain ⟨c1, vs⟩ := p
    unfold insertGroup
    by_cases h1c : c1 = c
    · subst h1c
      simp only [beq_self_eq_true, if_true]
      by_cases hac : a = c1
      · subst hac
        rw [if_pos rfl, groupGet_cons_eq, groupGet_cons_eq]
      · rw [if_neg hac, groupGet_cons_ne hac, groupGet_cons_ne hac]
    · rw [show (c1 == c) = false from beq_eq_false_iff_ne.mpr h1c]
      simp only [Bool.false_eq_true, if_false]
      by_cases hac : a = c1
      · subst hac
        have hac2 : a ≠ c := fun h => h1c h
        rw [if_neg hac2, groupGet_cons_eq, groupGet_cons_eq]
      · rw [groupGet_cons_ne hac, ih, groupGet_cons_ne hac]
        by_cases hacc : a = c
        · rw [if_pos hacc, if_pos hacc]
          rw [groupGet_cons_ne (fun h => h1c h.symm)]
        · rw [if_neg hacc, if_neg hacc]

theorem groupGet_rhymeGroupsAux (n : Nat) :
    ∀ (sch : List Char) (off : Nat) (acc : List (Char × List Nat)) (a : Char),
      groupGet (rhymeGroupsAux n sch off acc) a =
        groupGet acc a ++ selIdx n sch off a := by
  intro sch
  induction sch with
  | nil =>
    intro off acc a
    simp [rhymeGroupsAux, selIdx]
  | cons c cs ih =>
    intro off acc a
    unfold rhymeGroupsAux selIdx
    rw [ih]
    by_cases hoff : off < n
    · rw [if_pos hoff, groupGet_insertGroup]
      by_cases hac : a = c
      · subst hac
        rw [if_pos rfl, if_pos ⟨hoff, rfl⟩, List.append_assoc]
      · rw [if_neg hac, if_neg (fun h => hac h.2.symm)]
        rfl
    · rw [if_neg hoff, if_neg (fun h => hoff h.1)]
      rfl

theorem groupGet_rhymeGroups (sch : List Char) (off n : Nat) (a : Char) :
    groupGet (rhymeGroups sch off n) a = selIdx n sch off a := by
  unfold rhymeGroups
  rw [groupGet_rhymeGroupsAux]
  rfl

theorem mem_selIdx (n : Nat) :
    ∀ (sch : List Char) (off : Nat) (a : Char) (j : Nat),
      j ∈ selIdx n sch off a ↔
        ∃ t, t < sch.length ∧ j = off + t ∧ j < n ∧ sch.getD t ' ' = a := by
  intro sch
  induction sch with
  | nil =>
    intro off a j
    simp [selIdx]
  | cons c cs ih =>
    intro off a j
    unfold selIdx
    rw [List.mem_append, ih]
    constructor
    · rintro (hl | ⟨t, ht, hj, hjn, hg⟩)
      · by_cases hca : off < n ∧ c = a
        · rw [if_pos hca] at hl
          simp only [List.mem_singleton] at hl
          subst hl
          exact ⟨0, by simp, by simp, hca.1, hca.2⟩
        · rw [if_neg hca] at hl
          simp at hl
      · exact ⟨t + 1, by simpa using ht, by omega, hjn, by simpa using hg⟩
    · rintro ⟨t, ht, hj, hjn, hg⟩
      cases t with
      | zero =>
        left
        simp only [List.getD_cons_zero] at hg
        have hj0 : j = off := by omega
        subst hj0
        rw [if_pos ⟨hjn, hg⟩]
        simp
      | succ t =>
        right
        refine ⟨t, by simpa using ht, by omega, hjn, by simpa using hg⟩

theorem selIdx_ge (n : Nat) :
    ∀ (sch : List Char) (off : Nat) (a : Char) (j : Nat),
      j ∈ selIdx n sch off a → off ≤ j := by
  intro sch off a j hj
  obtain ⟨t, _, hj, _, _⟩ := (mem_selIdx n sch off a j).mp hj
  omega

theorem selIdx_pairwise (n : Nat) :
    ∀ (sch : List Char) (off : Nat) (a : Char),
      (selIdx n sch off a).Pairwise (· < ·) := by
  intro sch
  induction sch with
  | nil =>
    intro off a
    simp [selIdx]
  | cons c cs ih =>
    intro off a
    unfold selIdx
    rw [List.pairwise_append]
    refine ⟨?_, ih (off + 1) a, ?_⟩
    · by_cases hca : off < n ∧ c = a
      · rw [if_pos hca]; simp
      · rw [if_neg hca]; simp
    · intro x hx y hy
      by_cases hca : off < n ∧ c = a
      · rw [if_pos hca] at hx
        simp only [List.mem_singleton] at hx
        have hge := selIdx_ge n cs (off + 1) a y hy
        omega
      · rw [if_neg hca] at hx
        simp at hx

/-- Well-formedness of a group dictionary: distinct letters and non-empty
index lists (both hold for every dictionary built by the block walk). -/
def GroupsWF (gs : List (Char × List Nat)) : Prop :=
  (gs.map Prod.fst).Nodup ∧ ∀ p ∈ gs, p.2 ≠ []

theorem keys_insertGroup (gs : List (Char × List Nat)) (c : Char) (v : Nat) :
    ∀ a, a ∈ (insertGroup gs c v).map Prod.fst →
      a ∈ gs.map Prod.fst ∨ a = c := by
  induction gs with
  | nil =>
    intro a ha
    simp [insertGroup] at ha
    exact Or.inr ha
  | cons p rest ih =>
    obtain ⟨c1, vs⟩ := p
    intro a ha
    unfold insertGroup at ha
    by_cases h1c : c1 = c
    · rw [if_pos (by simp [h1c])] at ha
      simp only [List.map_cons, List.mem_cons] at ha
      rcases ha with h | h
      · exact Or.inl (by simp [h])
      · exact Or.inl (by rw [List.map_cons]; exact List.mem_cons_of_mem _ h)
    · rw [if_neg (by simp [h1c])] at ha
      simp only [List.map_cons, List.mem_cons] at ha
      rcases ha with h | h
      · exact Or.inl (by simp [h])
      · rcases ih a h with h2 | h2
        · exact Or.inl (by rw [List.map_cons]; exact List.mem_cons_of_mem _ h2)
        · exact Or.inr h2

theorem groupsWF_insertGroup {gs : List (Char × List Nat)} (c : Char) (v : Nat)
    (hwf : GroupsWF gs) : GroupsWF (insertGroup gs c v) := by
  induction gs with
  | nil =>
    constructor
    · simp [insertGroup]
    · intro p hp
      simp [insertGroup] at hp
      rw [hp]
      simp
  | cons q rest ih =>
    obtain ⟨c1, vs⟩ := q
    obtain ⟨hnd, hne⟩ := hwf
    simp only [List.map_cons, List.nodup_cons] at hnd
    unfold insertGroup
    by_cases h1c : c1 = c
    · rw [if_pos (by simp [h1c])]
      constructor
      · simp only [List.map_cons, List.nodup_cons]
        exact hnd
      · intro p hp
        rcases List.mem_cons.mp hp with h | h
        · rw [h]; simp
        · exact hne p (List.mem_cons_of_mem _ h)
    · rw [if_neg (by simp [h1c])]
      have hwfrest : GroupsWF rest :=
        ⟨hnd.2, fun p hp => hne p (List.mem_cons_of_mem _ hp)⟩
      obtain ⟨ihnd, ihne⟩ := ih hwfrest
      constructor
      · simp only [List.map_cons, List.nodup_cons]
        refine ⟨?_, ihnd⟩
        intro hc1
        rcases keys_insertGroup rest c v c1 hc1 with h | h
        · exact hnd.1 h
        · exact h1c h
      · intro p hp
        rcases List.mem_cons.mp hp with h | h
        · rw [h]
          exact hne (c1, vs) (List.mem_cons_self _ _)
        · exact ihne p h

theorem groupsWF_rhymeGroupsAux (n : Nat) :
    ∀ (sch : List Char) (off : Nat) (acc : List (Char × List Nat)),
      GroupsWF acc → GroupsWF (rhymeGroupsAux n sch off acc) := by
  intro sch
  induction sch with
  | nil =>
    intro off acc h
    exact h
  | cons c cs ih =>
    intro off acc h
    unfold rhymeGroupsAux
    by_cases hoff : off < n
    · rw [if_pos hoff]
      exact ih (off + 1) _ (groupsWF_insertGroup c off h)
    · rw [if_neg hoff]
      exact ih (off + 1) acc h

theorem groupsWF_rhymeGroups (sch : List Char) (off n : Nat) :
    GroupsWF (rhymeGroups sch off n) :=
  groupsWF_rhymeGroupsAux n sch off [] ⟨by simp, by simp⟩

theorem pair_mem_groupGet {gs : List (Char × List Nat)} {a : Char}
    {vs : List Nat} (hwf : GroupsWF gs) (h : (a, vs) ∈ gs) :
    groupGet gs a = vs := by
  induction gs with
  | nil => simp at h
  | cons q rest ih =>
    obtain ⟨c1, ws⟩ := q
    obtain ⟨hnd, hne⟩ := hwf
    simp only [List.map_cons, List.nodup_cons] at hnd
    rcases List.mem_cons.mp h with heq | hmem
    · injection heq with h1 h2
      subst h1
      subst h2
      exact groupGet_cons_eq
    · have hane : a ≠ c1 := by
        intro hac
        subst hac
        exact hnd.1 (by simp; exact ⟨vs, hmem⟩)
      rw [groupGet_cons_ne hane]
      exact ih ⟨hnd.2, fun p hp => hne p (List.mem_cons_of_mem _ hp)⟩ hmem

/-- Claim C7: `enforce` partitions line indices into consecutive blocks of the
scheme's length (final block possibly partial) and groups each block's indices
by scheme letter.  Stated as: (1) the index list of letter `a` in the block at
offset `off` contains exactly the global indices `off + t` with `t` a matching
scheme position below the line count; (2) every group present in the built
dictionary is non-empty and equals that index list, and its first index is its
minimum (the reference line); (3) a line index `j < n` lies in the block
`i = j / len(scheme)` and in no other block, under the letter at position
`j mod len(scheme)`; (4) concretely, for a 4-line block, scheme `AABB` yields
groups `{0,1}` and `{2,3}` and scheme `ABBA` yields `{0,3}` and `{1,2}`. -/
theorem scheme_grouping_spec :
    (∀ (scheme : List Char) (off n : Nat) (a : Char) (j : Nat),
      j ∈ groupGet (rhymeGroups scheme off n) a ↔
        ∃ t, t < scheme.length ∧ j = off + t ∧ j < n ∧
          scheme.getD t ' ' = a) ∧
    (∀ (scheme : List Char) (off n : Nat) (a : Char) (indices : List Nat),
      (a, indices) ∈ rhymeGroups scheme off n →
        indices ≠ [] ∧ indices = groupGet (rhymeGroups scheme off n) a ∧
        ∀ m, indices.head? = some m → ∀ j ∈ indices, m ≤ j) ∧
    (∀ (scheme : List Char) (n j : Nat), scheme ≠ [] → j < n →
      ∀ i : Nat,
        (∃ a, j ∈ groupGet (rhymeGroups scheme (i * scheme.length) n) a) ↔
          i = j / scheme.length) ∧
    rhymeGroups RhymeScheme.AABB.value 0 4 = [('A', [0, 1]), ('B', [2, 3])] ∧
    rhymeGroups RhymeScheme.ABBA.value 0 4 = [('A', [0, 3]), ('B', [1, 2])] := by
  refine ⟨?_, ?_, ?_, by decide, by decide⟩
  · intro scheme off n a j
    rw [groupGet_rhymeGroups]
    exact mem_selIdx n scheme off a j
  · intro scheme off n a indices hmem
    have hwf := groupsWF_rhymeGroups scheme off n
    have hget := pair_mem_groupGet hwf hmem
    refine ⟨hwf.2 (a, indices) hmem, hget.symm, ?_⟩
    intro m hm j hj
    have hpw := selIdx_pairwise n scheme off a
    rw [← groupGet_rhymeGroups, hget] at hpw
    cases hind : indices with
    | nil => rw [hind] at hm; simp at hm
    | cons x xs =>
      rw [hind] at hm hj hpw
      simp only [List.head?_cons] at hm
      injection hm with hm
      subst hm
      rw [List.pairwise_cons] at hpw
      rcases List.mem_cons.mp hj with h | h
      · omega
      · exact Nat.le_of_lt (hpw.1 j h)
  · intro scheme n j hs hj i
    constructor
    · rintro ⟨a, ha⟩
      rw [groupGet_rhymeGroups] at ha
      obtain ⟨t, ht, hjt, _, _⟩ := (mem_selIdx n scheme _ a j).mp ha
      have hlen : 0 < scheme.length := List.length_pos.mpr hs
      have hdiv : (i * scheme.length + t) / scheme.length = i := by
        rw [Nat.add_comm, Nat.add_mul_div_right _ _ hlen, Nat.div_eq_of_lt ht]
        omega
      rw [hjt, hdiv]
    · intro hi
      subst hi
      refine ⟨scheme.getD (j % scheme.length) ' ', ?_⟩
      rw [groupGet_rhymeGroups, mem_selIdx]
      have hlen : 0 < scheme.length := List.length_pos.mpr hs
      refine ⟨j % scheme.length, Nat.mod_lt j hlen, ?_, hj, rfl⟩
      exact (Nat.div_add_mod' j scheme.length).symm

/-- Witness for C7: concrete instances of the grouping theorem for the scheme
`ABBA` on a 4-line poem. -/
theorem scheme_grouping_witness :
    (('A', [0, 3]) ∈ rhymeGroups RhymeScheme.ABBA.value 0 4 ∧
      ([0, 3] ≠ ([] : List Nat) ∧
        [0, 3] = groupGet (rhymeGroups RhymeScheme.ABBA.value 0 4) 'A' ∧
        ∀ m, ([0, 3] : List Nat).head? = some m → ∀ j ∈ ([0, 3] : List Nat), m ≤ j)) ∧
    (RhymeScheme.ABBA.value ≠ [] ∧ (3 : Nat) < 4 ∧
      ((∃ a, 3 ∈ groupGet
          (rhymeGroups RhymeScheme.ABBA.value (0 * RhymeScheme.ABBA.value.length) 4) a)
        ↔ (0 : Nat) = 3 / RhymeScheme.ABBA.value.length)) := by
  have h1 : ('A', [0, 3]) ∈ rhymeGroups RhymeScheme.ABBA.value 0 4 := by decide
  have h2 : RhymeScheme.ABBA.value ≠ [] := by decide
  have h3 : (3 : Nat) < 4 := by decide
  exact ⟨⟨h1, scheme_grouping_spec.2.1 _ 0 4 'A' [0, 3] h1⟩,
    ⟨h2, h3, scheme_grouping_spec.2.2.1 _ 4 3 h2 h3 0⟩⟩

/-! ## Claim C8: bounded collision retry always substitutes -/

theorem usedGet_cons_eq {c : Char} {ws : List (List Char)}
    {rest : List (Char × List (List Char))} : usedGet ((c, ws) :: rest) c = ws := by
  unfold usedGet
  rw [List.find?_cons_of_pos _ (by simp)]

theorem usedGet_cons_ne {c a : Char} {ws : List (List Char)}
    {rest : List (Char × List (List Char))} (h : a ≠ c) :
    usedGet ((c, ws) :: rest) a = usedGet rest a := by
  unfold usedGet
  rw [List.find?_cons_of_neg]
  simp only [beq_iff_eq]
  exact fun hc => h hc.symm

theorem mem_usedAdd (used : List (Char × List (List Char))) (letter : Char)
    (w : List Char) : w ∈ usedGet (usedAdd used letter w) letter := by
  induction used with
  | nil =>
    unfold usedAdd
    rw [usedGet_cons_eq]
    simp
  | cons p rest ih =>
    obtain ⟨c, ws⟩ := p
    unfold usedAdd
    by_cases hc : c = letter
    · subst hc
      simp only [beq_self_eq_true, if_true]
      rw [usedGet_cons_eq]
      by_cases hmem : ws.contains w
      · rw [if_pos hmem]
        exact List.mem_of_elem_eq_true hmem
      · rw [if_neg hmem]
        simp
    · rw [show (c == letter) = false from beq_eq_false_iff_ne.mpr hc]
      simp only [Bool.false_eq_true, if_false]
      rw [usedGet_cons_ne (fun h => hc h.symm)]
      exact ih

theorem retryLoop_draws (choose : Chooser) (cands : List WordEntry)
    (emotion : List (String × ℚ)) (usedSet : List (List Char)) :
    ∀ (fuel : Nat) (chosen : List Char) (k : Nat),
      k ≤ (retryLoop choose cands emotion usedSet fuel chosen k).2 ∧
      (retryLoop choose cands emotion usedSet fuel chosen k).2 ≤ k + fuel := by
  intro fuel
  induction fuel with
  | zero =>
    intro chosen k
    simp [retryLoop]
  | succ fuel ih =>
    intro chosen k
    unfold retryLoop
    by_cases h : usedSet.contains chosen = true
    · rw [if_pos h]
      obtain ⟨h1, h2⟩ := ih (choose cands emotion k) (k + 1)
      exact ⟨by omega, by omega⟩
    · rw [if_neg h]
      exact ⟨Nat.le_refl k, by omega⟩

theorem processTarget_skip (choose : Chooser) (cands : List WordEntry)
    (emotion : List (String × ℚ)) (letter : Char) (key : List Char)
    (lines : List (List Char)) (st : EnforceState) (idx : Nat)
    (hit : extract_rhyme_key (lines.getD idx []) = some key) :
    processTarget choose cands emotion letter key lines st idx = st := by
  unfold processTarget
  rw [if_pos hit]

theorem processTarget_subst (choose : Chooser) (cands : List WordEntry)
    (emotion : List (String × ℚ)) (letter : Char) (key : List Char)
    (lines : List (List Char)) (st : EnforceState) (idx : Nat)
    (hmiss : extract_rhyme_key (lines.getD idx []) ≠ some key) :
    processTarget choose cands emotion letter key lines st idx =
      { corrected := st.corrected.set idx (replace_last_word (lines.getD idx [])
          (retryLoop choose cands emotion (usedGet st.used letter) 5
            (choose cands emotion st.draws) (st.draws + 1)).1)
        used := usedAdd st.used letter
          (retryLoop choose cands emotion (usedGet st.used letter) 5
            (choose cands emotion st.draws) (st.draws + 1)).1
        draws := (retryLoop choose cands emotion (usedGet st.used letter) 5
          (choose cands emotion st.draws) (st.draws + 1)).2 } := by
  unfold processTarget
  rw [if_neg hmiss]

/-- Claim C8: for a substitution target (a line whose rhyme key differs from
the group key), the collision-avoidance loop performs at most 5 re-samples
after the initial draw (at most 6 draws total) and then accepts whatever word
was last drawn: a word is always accepted, recorded in the ledger for the
group letter, and the line is always substituted — retry exhaustion is not an
error and never aborts processing. -/
theorem bounded_retry_spec (choose : Chooser) (cands : List WordEntry)
    (emotion : List (String × ℚ)) (letter : Char) (key : List Char)
    (lines : List (List Char)) (st : EnforceState) (idx : Nat)
    (hmiss : extract_rhyme_key (lines.getD idx []) ≠ some key) :
    ∃ w : List Char,
      st.draws < (processTarget choose cands emotion letter key lines st idx).draws ∧
      (processTarget choose cands emotion letter key lines st idx).draws
        ≤ st.draws + 6 ∧
      (processTarget choose cands emotion letter key lines st idx).corrected
        = st.corrected.set idx (replace_last_word (lines.getD idx []) w) ∧
      w ∈ usedGet
        (processTarget choose cands emotion letter key lines st idx).used letter := by
  rw [processTarget_subst choose cands emotion letter key lines st idx hmiss]
  obtain ⟨h1, h2⟩ := retryLoop_draws choose cands emotion (usedGet st.used letter)
    5 (choose cands emotion st.draws) (st.draws + 1)
  refine ⟨(retryLoop choose cands emotion (usedGet st.used letter) 5
      (choose cands emotion st.draws) (st.draws + 1)).1, ?_, ?_, rfl,
    mem_usedAdd st.used letter _⟩
  · dsimp only
    omega
  · dsimp only
    omega

/-- Witness for C8: a concrete target line with no rhyme key, processed with a
constant chooser. -/
theorem bounded_retry_spec_witness :
    (extract_rhyme_key ((["аз".data] : List (List Char)).getD 0 []) ≠ some "ок".data) ∧
    (∃ w : List Char,
      (⟨["аз".data], [], 0⟩ : EnforceState).draws <
        (processTarget (fun _ _ _ => "яр".data) [] [] 'A' "ок".data ["аз".data]
          ⟨["аз".data], [], 0⟩ 0).draws ∧
      (processTarget (fun _ _ _ => "яр".data) [] [] 'A' "ок".data ["аз".data]
        ⟨["аз".data], [], 0⟩ 0).draws ≤
          (⟨["аз".data], [], 0⟩ : EnforceState).draws + 6 ∧
      (processTarget (fun _ _ _ => "яр".data) [] [] 'A' "ок".data ["аз".data]
        ⟨["аз".data], [], 0⟩ 0).corrected
        = (⟨["аз".data], [], 0⟩ : EnforceState).corrected.set 0
            (replace_last_word (["аз".data].getD 0 []) w) ∧
      w ∈ usedGet (processTarget (fun _ _ _ => "яр".data) [] [] 'A' "ок".data
        ["аз".data] ⟨["аз".data], [], 0⟩ 0).used 'A') := by
  refine ⟨by decide, ?_⟩
  exact bounded_retry_spec (fun _ _ _ => "яр".data) [] [] 'A' "ок".data
    ["аз".data] ⟨["аз".data], [], 0⟩ 0 (by decide)

/-! ## Claim C1: enforcement frame -/

/-- A line index that `enforce_rhyme_scheme` may substitute: a non-reference
member of a processed scheme group — the group's key exists and is non-empty,
its candidate list is non-empty — whose own rhyme key differs from the group
key.  All other indices (reference lines, members of skipped groups, members
that already rhyme) are outside this predicate. -/
def substitutionTarget (dict : List (List Char × List WordEntry))
    (accentFn : List Char → List Char) (lines : List (List Char))
    (scheme : List Char) (j : Nat) : Prop :=
  ∃ (i : Nat) (letter : Char) (refIdx : Nat) (rest : List Nat),
    (letter, refIdx :: rest) ∈
      rhymeGroups scheme (i * scheme.length) lines.length ∧
    j ∈ rest ∧
    ∃ key, extract_rhyme_key (accentFn (lines.getD refIdx [])) = some key ∧
      key ≠ [] ∧
      find_candidates dict key [find_last_word (lines.getD refIdx [])] ≠ [] ∧
      extract_rhyme_key (lines.getD j []) ≠ some key

/-- The invariant carried through the enforcement folds: the corrected list
keeps the input length, and every non-target index still holds its original
line. -/
def FrameInv (dict : List (List Char × List WordEntry))
    (accentFn : List Char → List Char) (lines : List (List Char))
    (scheme : List Char) (st : EnforceState) : Prop :=
  st.corrected.length = lines.length ∧
  ∀ j, ¬ substitutionTarget dict accentFn lines scheme j →
    st.corrected.getD j [] = lines.getD j []

theorem processTarget_preserve (dict : List (List Char × List WordEntry))
    (accentFn : List Char → List Char) (choose : Chooser)
    (cands : List WordEntry) (emotion : List (String × ℚ)) (letter : Char)
    (key : List Char) (lines : List (List Char)) (scheme : List Char)
    (i refIdx : Nat) (rest : List Nat)
    (hmem : (letter, refIdx :: rest) ∈
      rhymeGroups scheme (i * scheme.length) lines.length)
    (hkey : extract_rhyme_key (accentFn (lines.getD refIdx [])) = some key)
    (hkeyne : key ≠ [])
    (hcne : find_candidates dict key [find_last_word (lines.getD refIdx [])] ≠ [])
    (st : EnforceState) (idx : Nat) (hidx : idx ∈ rest)
    (hinv : FrameInv dict accentFn lines scheme st) :
    FrameInv dict accentFn lines scheme
      (processTarget choose cands emotion letter key lines st idx) := by
  by_cases hit : extract_rhyme_key (lines.getD idx []) = some key
  · rw [processTarget_skip choose cands emotion letter key lines st idx hit]
    exact hinv
  · rw [processTarget_subst choose cands emotion letter key lines st idx hit]
    obtain ⟨hlen, hunch⟩ := hinv
    constructor
    · dsimp only
      rw [List.length_set]
      exact hlen
    · intro j hj
      dsimp only
      have hjidx : j ≠ idx := by
        intro hji
        apply hj
        subst hji
        exact ⟨i, letter, refIdx, rest, hmem, hidx, key, hkey, hkeyne, hcne, hit⟩
      rw [getD_set_ne (fun h => hjidx h.symm)]
      exact hunch j hj

theorem processGroup_preserve (dict : List (List Char × List WordEntry))
    (accentFn : List Char → List Char) (choose : Chooser)
    (emotion : List (String × ℚ)) (lines : List (List Char))
    (scheme : List Char) (i : Nat) (pair : Char × List Nat)
    (hmem : pair ∈ rhymeGroups scheme (i * scheme.length) lines.length)
    (st : EnforceState) (hinv : FrameInv dict accentFn lines scheme st) :
    FrameInv dict accentFn lines scheme
      (processGroup dict accentFn choose emotion lines st pair) := by
  obtain ⟨letter, indices⟩ := pair
  unfold processGroup
  cases indices with
  | nil => exact hinv
  | cons refIdx rest =>
    cases hkey : extract_rhyme_key (accentFn (lines.getD refIdx [])) with
    | none =>
      simp only [hkey]
      exact hinv
    | some key =>
      simp only [hkey]
      by_cases hkeynil : key = []
      · rw [if_pos hkeynil]
        exact hinv
      · rw [if_neg hkeynil]
        by_cases hcnil :
            find_candidates dict key [find_last_word (lines.getD refIdx [])] = []
        · rw [if_pos hcnil]
          exact hinv
        · rw [if_neg hcnil]
          exact foldlPreserve hinv (fun s idx hb hs =>
            processTarget_preserve dict accentFn choose _ emotion letter key lines
              scheme i refIdx rest hmem hkey hkeynil hcnil s idx hb hs)

theorem processBlock_preserve (dict : List (List Char × List WordEntry))
    (accentFn : List Char → List Char) (choose : Chooser)
    (emotion : List (String × ℚ)) (lines : List (List Char))
    (scheme : List Char) (st : EnforceState) (i : Nat)
    (hinv : FrameInv dict accentFn lines scheme st) :
    FrameInv dict accentFn lines scheme
      (processBlock dict accentFn choose emotion lines scheme st i) := by
  unfold processBlock
  exact foldlPreserve hinv (fun s pair hpair hs =>
    processGroup_preserve dict accentFn choose emotion lines scheme i pair hpair s hs)

/-- Claim C1: for every input sequence of lines, scheme and emotion vector
(and every injected accent function, chooser, residual ledger and draw
counter), `enforce` returns a sequence of the same length and order, and every
index that is not a substitution target of a processed group — reference
lines, lines of skipped groups, and targets that already rhyme — holds its
input line character-for-character.  The embedding is purely functional: the
source copies the input (`poem_lines.copy()`) and never writes to it, which
the pure state threading models. -/
theorem enforce_frame_spec (dict : List (List Char × List WordEntry))
    (accentFn : List Char → List Char) (choose : Chooser)
    (lines : List (List Char)) (scheme : RhymeScheme)
    (emotion : List (String × ℚ)) (used0 : List (Char × List (List Char)))
    (k0 : Nat) :
    (enforce_rhyme_scheme dict accentFn choose lines scheme emotion used0 k0).length
      = lines.length ∧
    ∀ j, ¬ substitutionTarget dict accentFn lines scheme.value j →
      (enforce_rhyme_scheme dict accentFn choose lines scheme emotion used0 k0).getD j []
        = lines.getD j [] := by
  have hinv : FrameInv dict accentFn lines scheme.value
      ((List.range ((lines.length + scheme.value.length - 1) / scheme.value.length)).foldl
        (processBlock dict accentFn choose emotion lines scheme.value)
        ⟨lines, used0, k0⟩) :=
    foldlPreserve ⟨rfl, fun j _ => rfl⟩
      (fun s b _ hs =>
        processBlock_preserve dict accentFn choose emotion lines scheme.value s b hs)
  exact ⟨hinv.1, hinv.2⟩

/-- Witness for C1: a two-line poem under scheme `AABB`; index 0 is the
reference of its group (a group's first index is smaller than every other
member), hence no substitution target, and its line passes through
unchanged. -/
theorem enforce_frame_spec_witness :
    (¬ substitutionTarget [] id ["аб".data, "вг".data] RhymeScheme.AABB.value 0) ∧
    (enforce_rhyme_scheme [] id (fun _ _ _ => "ху".data)
        ["аб".data, "вг".data] RhymeScheme.AABB [] [] 0).getD 0 []
      = (["аб".data, "вг".data] : List (List Char)).getD 0 [] := by
  have hns : ¬ substitutionTarget [] id ["аб".data, "вг".data]
      RhymeScheme.AABB.value 0 := by
    rintro ⟨i, letter, refIdx, rest, hmem, hjrest, -⟩
    have hwf := groupsWF_rhymeGroups RhymeScheme.AABB.value
      (i * RhymeScheme.AABB.value.length)
      (["аб".data, "вг".data] : List (List Char)).length
    have hget := pair_mem_groupGet hwf hmem
    have hpw := selIdx_pairwise
      (["аб".data, "вг".data] : List (List Char)).length
      RhymeScheme.AABB.value (i * RhymeScheme.AABB.value.length) letter
    rw [← groupGet_rhymeGroups, hget] at hpw
    rw [List.pairwise_cons] at hpw
    exact absurd (hpw.1 0 hjrest) (by omega)
  exact ⟨hns, (enforce_frame_spec [] id (fun _ _ _ => "ху".data)
    ["аб".data, "вг".data] RhymeScheme.AABB [] [] 0).2 0 hns⟩

/-! ## Claim C10: the residual ledger never influences a later call -/

theorem processBlock_used_irrelevant (dict : List (List Char × List WordEntry))
    (accentFn : List Char → List Char) (choose : Chooser)
    (emotion : List (String × ℚ)) (lines : List (List Char))
    (scheme : List Char) (st1 st2 : EnforceState)
    (hc : st1.corrected = st2.corrected) (hd : st1.draws = st2.draws)
    (i : Nat) :
    processBlock dict accentFn choose emotion lines scheme st1 i =
    processBlock dict accentFn choose emotion lines scheme st2 i := by
  unfold processBlock
  have hclear : ({ st1 with used := [] } : EnforceState)
      = { st2 with used := [] } := by
    cases st1
    cases st2
    simp only at hc hd
    simp [hc, hd]
  rw [hclear]

theorem foldl_blocks_corrected (dict : List (List Char × List WordEntry))
    (accentFn : List Char → List Char) (choose : Chooser)
    (emotion : List (String × ℚ)) (lines : List (List Char))
    (scheme : List Char) :
    ∀ (l : List Nat) (st1 st2 : EnforceState),
      st1.corrected = st2.corrected → st1.draws = st2.draws →
      (l.foldl (processBlock dict accentFn choose emotion lines scheme)
        st1).corrected =
      (l.foldl (processBlock dict accentFn choose emotion lines scheme)
        st2).corrected := by
  intro l
  induction l with
  | nil =>
    intro st1 st2 hc _
    exact hc
  | cons x xs ih =>
    intro st1 st2 hc hd
    simp only [List.foldl_cons]
    rw [processBlock_used_irrelevant dict accentFn choose emotion lines scheme
      st1 st2 hc hd x]

/-- Claim C10: two invocations of `enforce` with the same inputs and the same
random-draw oracle produce equal outputs regardless of the residual
used-words ledger left on the processor object by any earlier invocation: the
ledger is cleared at the start of every scheme block (and the output of a
zero-block run does not consult it), so residual ledger state never
influences a later call's substitutions. -/
theorem ledger_isolation_spec (dict : List (List Char × List WordEntry))
    (accentFn : List Char → List Char) (choose : Chooser)
    (lines : List (List Char)) (scheme : RhymeScheme)
    (emotion : List (String × ℚ))
    (used1 used2 : List (Char × List (List Char))) (k0 : Nat) :
    enforce_rhyme_scheme dict accentFn choose lines scheme emotion used1 k0 =
    enforce_rhyme_scheme dict accentFn choose lines scheme emotion used2 k0 := by
  unfold enforce_rhyme_scheme
  exact foldl_blocks_corrected dict accentFn choose emotion lines scheme.value
    _ ⟨lines, used1, k0⟩ ⟨lines, used2, k0⟩ rfl rfl

/-! ## Claim C9: line splitting never drops characters -/

/-- The non-whitespace content of a string. -/
def noWs (s : List Char) : List Char := s.filter (fun c => !(isSpaceChar c))

/-- Concatenation of a list of lines. -/
def joinAll : List (List Char) → List Char
  | [] => []
  | l :: rest => l ++ joinAll rest

theorem joinAll_append (a b : List (List Char)) :
    joinAll (a ++ b) = joinAll a ++ joinAll b := by
  induction a with
  | nil => rfl
  | cons x xs ih =>
    show x ++ joinAll (xs ++ b) = (x ++ joinAll xs) ++ joinAll b
    rw [ih, List.append_assoc]

theorem noWs_append (a b : List Char) : noWs (a ++ b) = noWs a ++ noWs b :=
  List.filter_append a b

theorem noWs_dropWhile_space (l : List Char) :
    noWs (l.dropWhile isSpaceChar) = noWs l := by
  induction l with
  | nil => rfl
  | cons c rest ih =>
    rw [List.dropWhile_cons]
    by_cases hc : isSpaceChar c = true
    · rw [if_pos hc, ih]
      unfold noWs
      rw [List.filter_cons]
      simp [hc]
    · rw [if_neg hc]

theorem noWs_reverse (l : List Char) : noWs l.reverse = (noWs l).reverse :=
  List.filter_reverse _ l

theorem noWs_strip (l : List Char) : noWs (strip l) = noWs l := by
  unfold strip
  rw [noWs_reverse, noWs_dropWhile_space, noWs_reverse, List.reverse_reverse,
    noWs_dropWhile_space]

/-- Reassembly of the split parts: the text before the first mark followed by
each mark and its part. -/
def glueGroups : List (Char × List Char) → List Char
  | [] => []
  | (q, p) :: rest => q :: (p ++ glueGroups rest)

theorem splitPunct_glue (s : List Char) :
    (splitPunct s).1 ++ glueGroups (splitPunct s).2 = s := by
  induction s with
  | nil => rfl
  | cons c rest ih =>
    unfold splitPunct
    by_cases hc : isSplitPunct c = true
    · rw [if_pos hc]
      dsimp only
      unfold glueGroups
      simp only [List.nil_append]
      rw [ih]
    · rw [if_neg hc]
      dsimp only
      rw [List.cons_append, ih]

theorem splitPunct_not_space {c : Char} (h : isSplitPunct c = true) :
    isSpaceChar c = false := by
  simp only [isSplitPunct, Bool.or_eq_true, beq_iff_eq] at h
  rcases h with ((((h | h) | h) | h) | h) | h <;> subst h <;> decide

theorem splitPunct_groups_punct (s : List Char) :
    ∀ p ∈ (splitPunct s).2, isSplitPunct p.1 = true := by
  induction s with
  | nil =>
    intro p hp
    simp [splitPunct] at hp
  | cons c rest ih =>
    intro p hp
    unfold splitPunct at hp
    by_cases hc : isSplitPunct c = true
    · rw [if_pos hc] at hp
      dsimp only at hp
      rcases List.mem_cons.mp hp with h | h
      · rw [h]
        exact hc
      · exact ih p h
    · rw [if_neg hc] at hp
      exact ih p hp

theorem noWs_punctTail_cons {q : Char} (hq : isSpaceChar q = false)
    (rest : List Char) : noWs (q :: rest) = q :: noWs rest := by
  unfold noWs
  rw [List.filter_cons]
  simp [hq]

theorem partPairs_chunks (gs : List (Char × List Char))
    (hg : ∀ p ∈ gs, isSplitPunct p.1 = true) :
    ∀ f : List Char,
      noWs (joinAll ((partPairs f gs).map
        (fun pp => strip pp.1 ++ punctTail pp.2))) = noWs (f ++ glueGroups gs) := by
  induction gs with
  | nil =>
    intro f
    unfold partPairs glueGroups
    simp only [List.map_cons, List.map_nil, joinAll, punctTail]
    rw [List.append_nil, List.append_nil, List.append_nil, noWs_strip]
  | cons g rest ih =>
    obtain ⟨q, p⟩ := g
    intro f
    have hq : isSpaceChar q = false :=
      splitPunct_not_space (hg (q, p) (List.mem_cons_self _ _))
    have hih := ih (fun x hx => hg x (List.mem_cons_of_mem _ hx)) p
    have hqs : noWs (punctTail (some q)) = [q] := by
      unfold punctTail
      rw [noWs_punctTail_cons hq]
      simp [noWs, isSpaceChar]
    unfold partPairs glueGroups
    simp only [List.map_cons, joinAll]
    rw [noWs_append, noWs_append (strip f), noWs_strip, hqs, hih]
    rw [noWs_append f, noWs_punctTail_cons hq]
    simp [List.append_assoc]

theorem splitStep_eq_pos (cs : List Char → Nat) (maxSyl : Nat)
    (temp : List Char) (tsyl : Nat) (made : Bool) (out : List (List Char))
    (pp : List Char × Option Char)
    (h : tsyl + cs (strip pp.1) ≤ maxSyl ∨ temp = []) :
    splitStep cs maxSyl (temp, tsyl, made, out) pp =
      (temp ++ strip pp.1 ++ punctTail pp.2, tsyl + cs (strip pp.1), made, out) := by
  unfold splitStep
  dsimp only
  rw [if_pos h]

theorem splitStep_eq_neg (cs : List Char → Nat) (maxSyl : Nat)
    (temp : List Char) (tsyl : Nat) (made : Bool) (out : List (List Char))
    (pp : List Char × Option Char)
    (h : ¬ (tsyl + cs (strip pp.1) ≤ maxSyl ∨ temp = [])) :
    splitStep cs maxSyl (temp, tsyl, made, out) pp =
      (strip pp.1 ++ punctTail pp.2, cs (strip pp.1), true, out ++ [strip temp]) := by
  unfold splitStep
  dsimp only
  rw [if_neg h]

theorem splitStep_fold (cs : List Char → Nat) (maxSyl : Nat) :
    ∀ (pairs : List (List Char × Option Char)) (temp : List Char) (tsyl : Nat)
      (made : Bool) (out : List (List Char)),
      noWs (joinAll (pairs.foldl (splitStep cs maxSyl)
          (temp, tsyl, made, out)).2.2.2 ++
        (pairs.foldl (splitStep cs maxSyl) (temp, tsyl, made, out)).1) =
      noWs (joinAll out ++ temp ++
        joinAll (pairs.map (fun pp => strip pp.1 ++ punctTail pp.2))) ∧
      ((pairs.foldl (splitStep cs maxSyl) (temp, tsyl, made, out)).2.2.1 = false →
        made = false ∧
        (pairs.foldl (splitStep cs maxSyl) (temp, tsyl, made, out)).2.2.2 = out) := by
  intro pairs
  induction pairs with
  | nil =>
    intro temp tsyl made out
    constructor
    · simp [joinAll, List.append_assoc]
    · intro h
      exact ⟨h, rfl⟩
  | cons pp rest ih =>
    intro temp tsyl made out
    rw [List.foldl_cons]
    by_cases hcond : tsyl + cs (strip pp.1) ≤ maxSyl ∨ temp = []
    · rw [splitStep_eq_pos cs maxSyl temp tsyl made out pp hcond]
      obtain ⟨ihc, ihm⟩ := ih (temp ++ strip pp.1 ++ punctTail pp.2)
        (tsyl + cs (strip pp.1)) made out
      constructor
      · rw [ihc]
        simp only [List.map_cons, joinAll]
        simp [noWs_append, List.append_assoc]
      · exact ihm
    · rw [splitStep_eq_neg cs maxSyl temp tsyl made out pp hcond]
      obtain ⟨ihc, ihm⟩ := ih (strip pp.1 ++ punctTail pp.2)
        (cs (strip pp.1)) true (out ++ [strip temp])
      constructor
      · rw [ihc]
        simp only [List.map_cons, joinAll, joinAll_append]
        simp [noWs_append, List.append_assoc, noWs_strip, joinAll]
      · intro h
        obtain ⟨hfalse, -⟩ := ihm h
        exact absurd hfalse (by simp)

theorem splitPunct_no_punct (line : List Char)
    (hnp : ∀ c ∈ line, isSplitPunct c = false) : splitPunct line = (line, []) := by
  induction line with
  | nil => rfl
  | cons c rest ih =>
    unfold splitPunct
    rw [ih (fun x hx => hnp x (List.mem_cons_of_mem _ hx))]
    rw [hnp c (List.mem_cons_self _ _)]
    simp

theorem splitLongLine_eq_long (cs : List Char → Nat) (maxSyl : Nat)
    (line : List Char) (hlong : maxSyl < cs line) :
    splitLongLine cs maxSyl line =
      (if ((partPairs (splitPunct line).1 (splitPunct line).2).foldl
            (splitStep cs maxSyl) ([], 0, false, [])).2.2.1 = true
       then ((partPairs (splitPunct line).1 (splitPunct line).2).foldl
              (splitStep cs maxSyl) ([], 0, false, [])).2.2.2 ++
            [strip ((partPairs (splitPunct line).1 (splitPunct line).2).foldl
              (splitStep cs maxSyl) ([], 0, false, [])).1]
       else (((partPairs (splitPunct line).1 (splitPunct line).2).foldl
              (splitStep cs maxSyl) ([], 0, false, [])).2.2.2 ++
            [strip ((partPairs (splitPunct line).1 (splitPunct line).2).foldl
              (splitStep cs maxSyl) ([], 0, false, [])).1]).dropLast ++ [line]) := by
  unfold splitLongLine
  rw [if_pos hlong]

/-- Claim C9: `splitLongLines` never drops characters — ignoring whitespace,
the concatenation of the fragments produced from one input line is exactly
that line's word and punctuation content (also summed over a whole line
sequence) — and an over-limit line containing none of the split punctuation
marks is emitted as a single unchanged line.  `cs` is the injected
`count_syllables` function (syllable counting through the external `pyphen`
hyphenation dictionary); both parts hold for every such function. -/
theorem split_long_lines_spec (cs : List Char → Nat) (maxSyl : Nat) :
    (∀ line, noWs (joinAll (splitLongLine cs maxSyl line)) = noWs line) ∧
    (∀ lines, noWs (joinAll (split_long_lines cs maxSyl lines))
      = noWs (joinAll lines)) ∧
    (∀ line, maxSyl < cs line → (∀ c ∈ line, isSplitPunct c = false) →
      splitLongLine cs maxSyl line = [line]) := by
  have hone : ∀ line, noWs (joinAll (splitLongLine cs maxSyl line)) = noWs line := by
    intro line
    by_cases hlong : maxSyl < cs line
    · rw [splitLongLine_eq_long cs maxSyl line hlong]
      obtain ⟨hc, hm⟩ := splitStep_fold cs maxSyl
        (partPairs (splitPunct line).1 (splitPunct line).2) [] 0 false []
      simp only [joinAll, List.nil_append, List.append_nil] at hc
      rw [partPairs_chunks (splitPunct line).2 (splitPunct_groups_punct line)
        (splitPunct line).1, splitPunct_glue] at hc
      by_cases hmade : ((partPairs (splitPunct line).1 (splitPunct line).2).foldl
          (splitStep cs maxSyl) ([], 0, false, [])).2.2.1 = true
      · rw [if_pos hmade]
        rw [joinAll_append]
        simp only [joinAll, List.append_nil]
        rw [noWs_append, noWs_strip, ← noWs_append]
        exact hc
      · rw [if_neg hmade]
        obtain ⟨-, hout⟩ := hm (Bool.not_eq_true _ ▸ hmade)
        rw [hout]
        simp only [List.nil_append, List.dropLast_single]
        simp only [joinAll, List.append_nil]
    · unfold splitLongLine
      rw [if_neg hlong]
      simp [joinAll]
  refine ⟨hone, ?_, ?_⟩
  · intro lines
    induction lines with
    | nil => rfl
    | cons l rest ih =>
      unfold split_long_lines
      rw [joinAll_append, noWs_append, hone l, ih]
      show noWs l ++ noWs (joinAll rest) = noWs (l ++ joinAll rest)
      rw [noWs_append]
  · intro line hlong hnp
    rw [splitLongLine_eq_long cs maxSyl line hlong]
    rw [splitPunct_no_punct line hnp]
    simp only [partPairs, List.foldl_cons, List.foldl_nil]
    rw [splitStep_eq_pos cs maxSyl [] 0 false [] (line, none) (Or.inr rfl)]
    simp [List.dropLast]

/-- Witness for C9: a character-count syllable function, limit 1, and the
punctuation-free over-limit line `абв`. -/
theorem split_long_lines_spec_witness :
    (1 < List.length "абв".data ∧ (∀ c ∈ "абв".data, isSplitPunct c = false)) ∧
    splitLongLine List.length 1 "абв".data = ["абв".data] := by
  have h1 : 1 < List.length "абв".data := by decide
  have h2 : ∀ c ∈ "абв".data, isSplitPunct c = false := by decide
  exact ⟨⟨h1, h2⟩, (split_long_lines_spec List.length 1).2.2 "абв".data h1 h2⟩

/-! ## Claim C2: the kept nucleus of `choose_word_top_p` -/

theorem candWeight_pos (target : List (String × ℚ)) (c : WordEntry) :
    0 < candWeight target c := Real.exp_pos _

theorem candProb_pos (cands : List WordEntry) (target : List (String × ℚ))
    (h : cands ≠ []) (i : Nat) : 0 < candProb cands target i := by
  unfold candProb
  apply div_pos (candWeight_pos _ _)
  apply List.sum_pos
  · intro x hx
    obtain ⟨c, -, hc⟩ := List.mem_map.mp hx
    rw [← hc]
    exact candWeight_pos _ _
  · simp only [ne_eq, List.map_eq_nil]
    exact h

theorem cumMask_nil_of_gt (p : Nat → ℝ) (topP : ℝ) :
    ∀ (l : List Nat) (acc : ℝ), (∀ j ∈ l, 0 < p j) → topP < acc →
      cumMask p topP l acc = [] := by
  intro l
  induction l with
  | nil =>
    intro acc _ _
    rfl
  | cons j rest ih =>
    intro acc hpos hgt
    unfold cumMask
    have hpj := hpos j (List.mem_cons_self _ _)
    rw [if_neg (by intro hle; linarith)]
    exact ih _ (fun x hx => hpos x (List.mem_cons_of_mem _ hx)) (by linarith)

theorem cumMask_eq_cumLePfx (p : Nat → ℝ) (topP : ℝ) :
    ∀ (l : List Nat) (acc : ℝ), (∀ j ∈ l, 0 < p j) →
      cumMask p topP l acc = cumLePfx p topP l acc := by
  intro l
  induction l with
  | nil =>
    intro acc _
    rfl
  | cons j rest ih =>
    intro acc hpos
    unfold cumMask cumLePfx
    by_cases hle : acc + p j ≤ topP
    · rw [if_pos hle, if_pos hle,
        ih _ (fun x hx => hpos x (List.mem_cons_of_mem _ hx))]
    · rw [if_neg hle, if_neg hle]
      push_neg at hle
      exact cumMask_nil_of_gt p topP rest _
        (fun x hx => hpos x (List.mem_cons_of_mem _ hx)) hle

theorem insertDescend_length (p : Nat → ℝ) (i : Nat) :
    ∀ l : List Nat, (insertDescend p i l).length = l.length + 1 := by
  intro l
  induction l with
  | nil => rfl
  | cons j rest ih =>
    unfold insertDescend
    by_cases h : p j < p i
    · rw [if_pos h]
      simp
    · rw [if_neg h]
      simp only [List.length_cons, ih]

theorem foldl_insertDescend_length (p : Nat → ℝ) :
    ∀ (l : List Nat) (acc : List Nat),
      (l.foldl (fun acc i => insertDescend p i acc) acc).length
        = acc.length + l.length := by
  intro l
  induction l with
  | nil =>
    intro acc
    rfl
  | cons x xs ih =>
    intro acc
    rw [List.foldl_cons, ih, insertDescend_length]
    simp only [List.length_cons]
    omega

theorem argsortDescend_length (p : Nat → ℝ) (n : Nat) :
    (argsortDescend p n).length = n := by
  unfold argsortDescend
  rw [foldl_insertDescend_length]
  simp

theorem top_indices_ne_nil (cands : List WordEntry)
    (target : List (String × ℚ)) (topP : ℝ) (h : cands ≠ []) :
    top_indices cands target topP ≠ [] := by
  unfold top_indices
  by_cases hm : cumMask (candProb cands target) topP
      (argsortDescend (candProb cands target) cands.length) 0 = []
  · rw [if_pos hm]
    intro htake
    have hlen := congrArg List.length htake
    rw [List.length_take, argsortDescend_length] at hlen
    simp only [List.length_nil] at hlen
    have hpos : 0 < cands.length := List.length_pos.mpr h
    omega
  · rw [if_neg hm]
    exact hm

/-- The amended description of the sampler, used by the C2 theorem and its
witness: the boolean cumulative mask keeps exactly the longest prefix of the
probability-descending index list whose running sum stays `≤ topP` (the
fallback to the single best index is applied when that prefix is empty), and
the draw oracle selects `top_indices[draw mod length]`, so the sampled words
are exactly the words of `top_indices`, each reachable by some draw. -/
def chooseAmendedProp (cands : List WordEntry) (target : List (String × ℚ))
    (topP : ℝ) : Prop :=
  cumMask (candProb cands target) topP
      (argsortDescend (candProb cands target) cands.length) 0 =
    cumLePfx (candProb cands target) topP
      (argsortDescend (candProb cands target) cands.length) 0 ∧
  (∀ draw : Nat, ∃ i ∈ top_indices cands target topP,
    choose_word_top_p cands target topP draw = (cands.getD i default).word) ∧
  (∀ i ∈ top_indices cands target topP, ∃ draw : Nat,
    choose_word_top_p cands target topP draw = (cands.getD i default).word)

/-- Claim C2 as amended: for every non-empty candidate list, `chooseWord`
restricts sampling to the *longest* prefix of the probability-descending
candidate list whose cumulative probability stays `≤ topP` (not the shortest
prefix reaching `topP`), falling back to the single highest-probability
candidate when that prefix is empty, and draws among the kept indices
uniformly via the random draw (`np.random.choice` without weights), not in
proportion to the original weights: every kept candidate and only kept
candidates can be returned. -/
theorem choose_word_top_p_amended (cands : List WordEntry)
    (target : List (String × ℚ)) (topP : ℝ) (h : cands ≠ []) :
    chooseAmendedProp cands target topP := by
  refine ⟨cumMask_eq_cumLePfx _ _ _ _ (fun j _ => candProb_pos cands target h j),
    ?_, ?_⟩
  · intro draw
    have htne := top_indices_ne_nil cands target topP h
    have hlt : draw % (top_indices cands target topP).length
        < (top_indices cands target topP).length :=
      Nat.mod_lt _ (List.length_pos.mpr htne)
    refine ⟨(top_indices cands target topP).getD
      (draw % (top_indices cands target topP).length) 0, ?_, rfl⟩
    rw [List.getD_eq_getElem _ _ hlt]
    exact List.getElem_mem hlt
  · intro i hi
    obtain ⟨k, hk, hik⟩ := List.mem_iff_getElem.mp hi
    refine ⟨k, ?_⟩
    simp only [choose_word_top_p]
    rw [Nat.mod_eq_of_lt hk, List.getD_eq_getElem _ _ hk, hik]

/-- Concrete candidates for the C2 theorems: the first matches the target
emotion exactly (distance 0), the second is at distance 1. -/
def exC2e0 : WordEntry := ⟨"аа".data, [("joy", 1)]⟩

/-- Second C2 candidate (all emotion weights zero). -/
def exC2e1 : WordEntry := ⟨"бб".data, []⟩

/-- The C2 candidate list. -/
def exC2Cands : List WordEntry := [exC2e0, exC2e1]

/-- The C2 target emotion vector. -/
def exC2Target : List (String × ℚ) := [("joy", 1)]

/-- Witness for C2 (amended), instantiated at the concrete candidate list. -/
theorem choose_word_top_p_amended_witness :
    exC2Cands ≠ [] ∧ chooseAmendedProp exC2Cands exC2Target ((9 : ℝ)/10) :=
  ⟨by decide, choose_word_top_p_amended exC2Cands exC2Target ((9 : ℝ)/10) (by decide)⟩

theorem exC2_dist0 :
    euclidean_distance exC2e0.emotions exC2Target = 0 := by
  unfold euclidean_distance
  have h : ((emotionAxes.map (fun e =>
      ((emotionGet exC2e0.emotions e : ℝ) - (emotionGet exC2Target e : ℝ)) ^ 2)).sum)
      = 0 := by
    simp only [emotionAxes, List.map_cons, List.map_nil, List.sum_cons,
      List.sum_nil]
    norm_num [show emotionGet exC2e0.emotions "anger" = 0 from rfl,
      show emotionGet exC2e0.emotions "no_emotion" = 0 from rfl,
      show emotionGet exC2e0.emotions "fear" = 0 from rfl,
      show emotionGet exC2e0.emotions "joy" = 1 from rfl,
      show emotionGet exC2e0.emotions "sadness" = 0 from rfl,
      show emotionGet exC2e0.emotions "surprise" = 0 from rfl,
      show emotionGet exC2Target "anger" = 0 from rfl,
      show emotionGet exC2Target "no_emotion" = 0 from rfl,
      show emotionGet exC2Target "fear" = 0 from rfl,
      show emotionGet exC2Target "joy" = 1 from rfl,
      show emotionGet exC2Target "sadness" = 0 from rfl,
      show emotionGet exC2Target "surprise" = 0 from rfl]
  rw [h, Real.sqrt_zero]

theorem exC2_dist1 :
    euclidean_distance exC2e1.emotions exC2Target = 1 := by
  unfold euclidean_distance
  have h : ((emotionAxes.map (fun e =>
      ((emotionGet exC2e1.emotions e : ℝ) - (emotionGet exC2Target e : ℝ)) ^ 2)).sum)
      = 1 := by
    simp only [emotionAxes, List.map_cons, List.map_nil, List.sum_cons,
      List.sum_nil]
    norm_num [show emotionGet exC2e1.emotions "anger" = 0 from rfl,
      show emotionGet exC2e1.emotions "no_emotion" = 0 from rfl,
      show emotionGet exC2e1.emotions "fear" = 0 from rfl,
      show emotionGet exC2e1.emotions "joy" = 0 from rfl,
      show emotionGet exC2e1.emotions "sadness" = 0 from rfl,
      show emotionGet exC2e1.emotions "surprise" = 0 from rfl,
      show emotionGet exC2Target "anger" = 0 from rfl,
      show emotionGet exC2Target "no_emotion" = 0 from rfl,
      show emotionGet exC2Target "fear" = 0 from rfl,
      show emotionGet exC2Target "joy" = 1 from rfl,
      show emotionGet exC2Target "sadness" = 0 from rfl,
      show emotionGet exC2Target "surprise" = 0 from rfl]
  rw [h, Real.sqrt_one]

theorem exC2_w0 : candWeight exC2Target exC2e0 = 1 := by
  unfold candWeight
  rw [exC2_dist0, neg_zero, Real.exp_zero]

theorem exC2_w1 : candWeight exC2Target exC2e1 = Real.exp (-1) := by
  unfold candWeight
  rw [exC2_dist1]

theorem exC2_sum :
    ((exC2Cands.map (candWeight exC2Target)).sum) = 1 + Real.exp (-1) := by
  show candWeight exC2Target exC2e0 + (candWeight exC2Target exC2e1 + 0)
    = 1 + Real.exp (-1)
  rw [exC2_w0, exC2_w1, add_zero]

theorem exC2_expneg_pos : (0 : ℝ) < Real.exp (-1) := Real.exp_pos _

theorem exC2_expneg_lt_one : Real.exp (-1) < 1 := by
  rw [Real.exp_neg]
  have h1 : (1 : ℝ) < Real.exp 1 := by
    have := Real.exp_one_gt_d9
    linarith
  exact inv_lt_one h1

theorem exC2_expneg_gt_ninth : (1 : ℝ) / 9 < Real.exp (-1) := by
  rw [Real.exp_neg, inv_eq_one_div]
  have h9 : Real.exp 1 < 9 := by
    have := Real.exp_one_lt_d9
    linarith
  exact one_div_lt_one_div_of_lt (Real.exp_pos 1) h9

theorem exC2_sum_pos : (0 : ℝ) < 1 + Real.exp (-1) := by
  have := exC2_expneg_pos
  linarith

theorem exC2_p0 :
    candProb exC2Cands exC2Target 0 = 1 / (1 + Real.exp (-1)) := by
  unfold candProb
  rw [exC2_sum]
  rw [show exC2Cands.getD 0 default = exC2e0 from rfl, exC2_w0]

theorem exC2_p1 :
    candProb exC2Cands exC2Target 1 = Real.exp (-1) / (1 + Real.exp (-1)) := by
  unfold candProb
  rw [exC2_sum]
  rw [show exC2Cands.getD 1 default = exC2e1 from rfl, exC2_w1]

theorem exC2_p1_lt_p0 :
    candProb exC2Cands exC2Target 1 < candProb exC2Cands exC2Target 0 := by
  rw [exC2_p0, exC2_p1]
  rw [div_lt_div_iff_of_pos_right exC2_sum_pos]
  exact exC2_expneg_lt_one

theorem exC2_p0_lt :
    candProb exC2Cands exC2Target 0 < 9 / 10 := by
  rw [exC2_p0]
  rw [div_lt_iff exC2_sum_pos]
  have := exC2_expneg_gt_ninth
  linarith

theorem exC2_p0_p1_sum :
    candProb exC2Cands exC2Target 0 + candProb exC2Cands exC2Target 1 = 1 := by
  rw [exC2_p0, exC2_p1]
  field_simp

theorem exC2_sorted :
    argsortDescend (candProb exC2Cands exC2Target) exC2Cands.length = [0, 1] := by
  show argsortDescend (candProb exC2Cands exC2Target) 2 = [0, 1]
  unfold argsortDescend
  rw [show List.range 2 = [0, 1] from rfl]
  rw [List.foldl_cons, List.foldl_cons, List.foldl_nil]
  rw [show insertDescend (candProb exC2Cands exC2Target) 0 [] = [0] from rfl]
  unfold insertDescend
  rw [if_neg (not_lt_of_gt exC2_p1_lt_p0)]
  rfl

theorem exC2_mask :
    cumMask (candProb exC2Cands exC2Target) ((9 : ℝ)/10) [0, 1] 0 = [0] := by
  unfold cumMask
  rw [if_pos (by have := exC2_p0_lt; linarith)]
  unfold cumMask
  rw [if_neg (by have := exC2_p0_p1_sum; intro hle; linarith)]
  rfl

theorem exC2_top : top_indices exC2Cands exC2Target ((9 : ℝ)/10) = [0] := by
  unfold top_indices
  simp only [exC2_sorted, exC2_mask]
  rw [if_neg (by simp)]

theorem exC2_spec_nucleus :
    specNucleus (candProb exC2Cands exC2Target) ((9 : ℝ)/10) [0, 1] 0 = [0, 1] := by
  unfold specNucleus
  rw [if_neg (by have := exC2_p0_lt; intro hle; linarith)]
  unfold specNucleus
  rw [if_pos (by have := exC2_p0_p1_sum; linarith)]

/-- Counterexample for C2: with two candidates at distances 0 and 1 from the
target and `topP = 0.9`, the prefix described by the claim (shortest prefix
whose cumulative probability first reaches or exceeds `topP`) is the whole
sorted list `[0, 1]`, but the code's boolean mask `cumulative_probs <= top_p`
keeps only `[0]`; every draw returns candidate 0's word, and candidate 1 (a
member of the claimed prefix, with positive weight) can never be sampled. -/
theorem nucleus_counterexample :
    specNucleus (candProb exC2Cands exC2Target) ((9 : ℝ)/10)
        (argsortDescend (candProb exC2Cands exC2Target) exC2Cands.length) 0
      = [0, 1] ∧
    top_indices exC2Cands exC2Target ((9 : ℝ)/10) = [0] ∧
    choose_word_top_p exC2Cands exC2Target ((9 : ℝ)/10) 1 = "аа".data ∧
    (exC2Cands.getD 1 default).word = "бб".data ∧
    "аа".data ≠ "бб".data := by
  refine ⟨?_, exC2_top, ?_, rfl, by decide⟩
  · rw [exC2_sorted]
    exact exC2_spec_nucleus
  · simp only [choose_word_top_p]
    rw [exC2_top]
    rfl
